import Mathlib

/-!
match-versions: a shallow embedding of `main.go`.

The program reads the `require ( ... )` block of two `go.mod` files (the
"get" module and the "set" module), copies into the set module's entries the
versions the get module pins for the same names, and rewrites the set
module's `go.mod`.

Modelling choices.

* A Go `string` holding valid UTF-8 text is a `List Char` (`Str`).  The
  needles the program searches for (`"require ("`, `")"`, `"\n"`, `" "`) are
  ASCII, so byte offsets of `strings.Index` and code-point offsets agree up
  to the encoding of what precedes them, and slicing at those offsets is
  `List.take` / `List.drop`.
* `strings.Index` returns `Option Nat`; `none` is Go's `-1`.
* A Go `map[string]string` is an association list read from the front:
  `m[k] = v` puts a binding in front, `m[k]` reads the first binding for `k`.
  A `nil` map reads like the empty map.
* An index expression `split[1]` on a one-element slice is a run-time panic:
  results are `Outcome`s with the three cases `ok`, `error` (an `error`
  value was returned) and `panic`.
* The file system is a function from paths to nodes.  `os.Stat` reports
  "does not exist" exactly on the paths without a node, `ioutil.ReadFile`
  succeeds exactly on file nodes, and a write to a path replaces the node at
  that path by a file node.
-/

namespace MatchVersions

/-- Text: a Go string holding valid UTF-8. -/
abbrev Str := List Char

/-! ## The pieces of the Go standard library the program calls -/

/-- `unicode.IsSpace`: the code points with the Unicode White_Space property. -/
def unicodeIsSpace (c : Char) : Bool :=
  (0x09 ≤ c.toNat && c.toNat ≤ 0x0d) || c.toNat == 0x20 || c.toNat == 0x85 || c.toNat == 0xa0 ||
  c.toNat == 0x1680 || (0x2000 ≤ c.toNat && c.toNat ≤ 0x200a) || c.toNat == 0x2028 ||
  c.toNat == 0x2029 || c.toNat == 0x202f || c.toNat == 0x205f || c.toNat == 0x3000

/-- `strings.TrimSpace`: drop the leading and the trailing white space. -/
def stringsTrimSpace (s : Str) : Str :=
  (s.dropWhile unicodeIsSpace).rdropWhile unicodeIsSpace

/-- `strings.Index s sub`: the offset of the first occurrence of `sub` in `s`. -/
def stringsIndex : Str → Str → Option Nat
  | [], sub => if sub.isPrefixOf [] then some 0 else none
  | c :: t, sub =>
    if sub.isPrefixOf (c :: t) then some 0 else (stringsIndex t sub).map Nat.succ

/-- `strings.Split s sep` for a one-character separator: the pieces of `s`
between the occurrences of `sep`; the empty text gives one empty piece. -/
def stringsSplit : Str → Char → List Str
  | [], _ => [[]]
  | c :: t, sep =>
    if c = sep then [] :: stringsSplit t sep
    else
      match stringsSplit t sep with
      | [] => [[c]]
      | piece :: pieces => (c :: piece) :: pieces

/-- `strings.SplitN s sep 2` for a one-character separator: `[s]` when `sep`
does not occur in `s`, else the text before and the text after its first
occurrence. -/
def stringsSplitN2 : Str → Char → List Str
  | [], _ => [[]]
  | c :: t, sep =>
    if c = sep then [[], t]
    else
      match stringsSplitN2 t sep with
      | [a, b] => [c :: a, b]
      | _ => [c :: t]

/-! ## Maps -/

/-- A `map[string]string`, as the list of its assignments, newest first. -/
abbrev GoMap := List (Str × Str)

/-- The two-result read `v, ok := m[k]`. -/
def GoMap.get? : GoMap → Str → Option Str
  | [], _ => none
  | (k', v) :: m, k => if k' = k then some v else GoMap.get? m k

/-- The one-result read `m[k]`: the zero value `""` for a missing key. -/
def GoMap.get (m : GoMap) (k : Str) : Str := (GoMap.get? m k).getD []

/-- The assignment `m[k] = v`. -/
def GoMap.set (m : GoMap) (k v : Str) : GoMap := (k, v) :: m

/-! ## Results -/

/-- The `error` values the program creates or passes on. -/
inductive Err where
  /-- The error of `ioutil.ReadFile`. -/
  | readFile
  /-- The text "could not find the list of required imports". -/
  | noRequireList
  /-- The text "go.mod file contains formatting errors". -/
  | formattingErrors
  deriving DecidableEq, Repr

/-- How a call ends: with results and a `nil` error, with a non-`nil`
error, or in a run-time panic. -/
inductive Outcome (α : Type) where
  | ok (a : α)
  | error (e : Err)
  | panic
  deriving DecidableEq, Repr

/-! ## The file system -/

/-- What a path names. -/
inductive Node where
  | dir
  | file (content : Str)
  deriving DecidableEq, Repr

/-- A file system state. -/
abbrev FS := String → Option Node

/-- `ioutil.ReadFile`. -/
def readFile (fs : FS) (path : String) : Option Str :=
  match fs path with
  | some (Node.file content) => some content
  | _ => none

/-- `ioutil.WriteFile` on a path that names a file or nothing. -/
def writeFile (fs : FS) (path : String) (content : Str) : FS :=
  fun p => if p = path then some (Node.file content) else fs p

/-! ## `parseFileToRequireMap` -/

/-- The opening marker. -/
def requireOpen : Str := "require (".toList

/-- The closing marker. -/
def requireClose : Str := ")".toList

/-- The loop of `parseFileToRequireMap` (lines 113-117) over the lines that
are left, with the map built so far: each line is trimmed and split at its
first space; `split[1]` panics when the trimmed line has no space. -/
def parseLines : List Str → GoMap → Outcome (GoMap × List Str)
  | [], replaceMap => Outcome.ok (replaceMap, [])
  | replace :: rest, replaceMap =>
    match stringsSplitN2 (stringsTrimSpace replace) ' ' with
    | [name, version] =>
      match parseLines rest (GoMap.set replaceMap name version) with
      | Outcome.ok (m, names) => Outcome.ok (m, name :: names)
      | Outcome.error e => Outcome.error e
      | Outcome.panic => Outcome.panic
    | _ => Outcome.panic

/-- Lines 100-118 of `parseFileToRequireMap`, on the text read from the file. -/
def parseModString (modString : Str) : Outcome (GoMap × List Str) :=
  match stringsIndex modString requireOpen with
  | none => Outcome.error Err.noRequireList
  | some openIndex =>
    let modString := modString.drop (openIndex + 9)
    match stringsIndex modString requireClose with
    | none => Outcome.error Err.formattingErrors
    | some closeIndex =>
      let modString := modString.take closeIndex
      parseLines (stringsSplit (stringsTrimSpace modString) '\n') []

/-- The function `parseFileToRequireMap`. -/
def parseFileToRequireMap (fs : FS) (path : String) : Outcome (GoMap × List Str) :=
  match readFile fs path with
  | none => Outcome.error Err.readFile
  | some modString => parseModString modString

/-! ## `encodeModFile` -/

/-- The loop of `encodeModFile` (lines 137-141): one `"\n\t<key> <value>"`
per key, then a line break. -/
def encodeRequire (requireMap : GoMap) (requireKeys : List Str) : Str :=
  (requireKeys.map fun key => "\n\t".toList ++ key ++ " ".toList ++ GoMap.get requireMap key).flatten
    ++ "\n".toList

/-- Lines 126-143 of `encodeModFile`: the text it passes to `WriteFile`. -/
def encodeModString (modString : Str) (requireMap : GoMap) (requireKeys : List Str) :
    Except Err Str :=
  match stringsIndex modString requireOpen with
  | none => Except.error Err.noRequireList
  | some openIndex =>
    let start := modString.take (openIndex + 9)
    match stringsIndex modString requireClose with
    | none => Except.error Err.formattingErrors
    | some closeIndex =>
      let endText := modString.drop closeIndex
      Except.ok (start ++ encodeRequire requireMap requireKeys ++ endText)

/-- The function `encodeModFile`: the file system it leaves and the error it
returns. -/
def encodeModFile (fs : FS) (path : String) (requireMap : GoMap) (requireKeys : List Str) :
    FS × Option Err :=
  match readFile fs path with
  | none => (fs, some Err.readFile)
  | some modString =>
    match encodeModString modString requireMap requireKeys with
    | Except.error e => (fs, some e)
    | Except.ok text => (writeFile fs path text, none)

/-! ## `Match` -/

/-- What `Match` passes to `log.Error` / `log.Errorf`. -/
inductive LogMsg where
  | flagsNotSet
  | dirDoesNotExist (path : String)
  | goModDoesNotExist (path : String)
  | errorParsingGet (e : Err)
  | errorParsingSet (e : Err)
  deriving DecidableEq, Repr

/-- The end of a run of `Match`: the file system, the errors logged, and
whether the run ended in a panic. -/
structure Run where
  fs : FS
  log : List LogMsg
  panicked : Bool

/-- The merge loop of `Match` (lines 85-91). -/
def mergeLoop (getMap : GoMap) : GoMap → List Str → GoMap
  | setMap, [] => setMap
  | setMap, key :: keys =>
    match GoMap.get? getMap key with
    | none => mergeLoop getMap setMap keys
    | some val => mergeLoop getMap (GoMap.set setMap key val) keys

/-- Lines 74-92 of `Match`, with the two `go.mod` paths at hand. -/
def matchGoMods (fs : FS) (getGoModPath setGoModPath : String) : Run :=
  match parseFileToRequireMap fs getGoModPath with
  | Outcome.panic => ⟨fs, [], true⟩
  | Outcome.error e => ⟨fs, [LogMsg.errorParsingGet e], false⟩
  | Outcome.ok (getMap, _) =>
    match parseFileToRequireMap fs setGoModPath with
    | Outcome.panic => ⟨fs, [], true⟩
    | Outcome.error e =>
      -- logged, and the run goes on with the nil map and the nil slice
      ⟨(encodeModFile fs setGoModPath (mergeLoop getMap [] []) []).1,
        [LogMsg.errorParsingSet e], false⟩
    | Outcome.ok (setMap, setKeys) =>
      ⟨(encodeModFile fs setGoModPath (mergeLoop getMap setMap setKeys) setKeys).1, [], false⟩

/-- The command `Match`, from the values of the flags `get` and `set` on
(lines 49-92); `join` is `filepath.Join`. -/
def Match (join : String → String → String) (fs : FS) (getPath setPath : String) : Run :=
  if getPath = "" ∨ setPath = "" then ⟨fs, [LogMsg.flagsNotSet], false⟩
  else if fs getPath = none then ⟨fs, [LogMsg.dirDoesNotExist getPath], false⟩
  else if fs (join getPath "go.mod") = none then ⟨fs, [LogMsg.goModDoesNotExist getPath], false⟩
  else if fs setPath = none then ⟨fs, [LogMsg.dirDoesNotExist setPath], false⟩
  else if fs (join setPath "go.mod") = none then ⟨fs, [LogMsg.goModDoesNotExist setPath], false⟩
  else matchGoMods fs (join getPath "go.mod") (join setPath "go.mod")

/-! ## Well-formed entries and the encoder's layout -/

/-- The text is empty or begins with a character that is not white space. -/
def startsClean : Str → Bool
  | [] => true
  | c :: _ => !unicodeIsSpace c

/-- The text is empty or ends with a character that is not white space. -/
def endsClean (s : Str) : Bool := startsClean s.reverse

/-- A name as the parser records it: not empty, not beginning with white
space, and without a space, a line break or a closing parenthesis. -/
def GoodName (k : Str) : Prop :=
  k ≠ [] ∧ startsClean k = true ∧ ' ' ∉ k ∧ '\n' ∉ k ∧ ')' ∉ k

/-- A version-spec as the parser records it: not empty, not ending with
white space, and without a line break or a closing parenthesis. -/
def GoodVersion (v : Str) : Prop :=
  v ≠ [] ∧ endsClean v = true ∧ '\n' ∉ v ∧ ')' ∉ v

/-- An entry as the parser records it. -/
def GoodEntry (e : Str × Str) : Prop := GoodName e.1 ∧ GoodVersion e.2

instance (k : Str) : Decidable (GoodName k) := by unfold GoodName; infer_instance

instance (v : Str) : Decidable (GoodVersion v) := by unfold GoodVersion; infer_instance

instance (e : Str × Str) : Decidable (GoodEntry e) := by unfold GoodEntry; infer_instance

/-- The line the encoder writes for an entry: a line break, a tab, the
name, a space, the version-spec. -/
def entryLine (e : Str × Str) : Str := '\n' :: '\t' :: (e.1 ++ ' ' :: e.2)

/-- A manifest in the layout the encoder writes: a head, `require (`, one
encoded line per entry, a line break, `)`, and a tail. -/
def canonicalManifest (H : Str) (es : List (Str × Str)) (T : Str) : Str :=
  H ++ requireOpen ++ ((es.map entryLine).flatten ++ ['\n']) ++ ')' :: T

/-! ## Concrete file systems and manifests -/

/-- A `filepath.Join` for the concrete runs: the two parts with a slash. -/
def pathJoin (dir name : String) : String := dir ++ "/" ++ name

/-- The scenario of the specification: the get module pins `moduleA` and
`moduleC`, the set module requires `moduleA` and `moduleB`. -/
def scenarioFS : FS := fun p =>
  if p = "get/go.mod" then
    some (Node.file
      "module g\n\nrequire (\n\tmoduleA v1.5.0 // indirect\n\tmoduleC v9.9.9\n)\n".toList)
  else if p = "set/go.mod" then
    some (Node.file "module s\n\nrequire (\n\tmoduleA v1.0.0\n\tmoduleB v2.0.0\n)\n".toList)
  else if p = "get" ∨ p = "set" then some Node.dir
  else none

/-- The map parsed from the get module of the scenario. -/
def scenarioGetMap : GoMap :=
  [("moduleC".toList, "v9.9.9".toList), ("moduleA".toList, "v1.5.0 // indirect".toList)]

/-- The map parsed from the set module of the scenario. -/
def scenarioSetMap : GoMap :=
  [("moduleB".toList, "v2.0.0".toList), ("moduleA".toList, "v1.0.0".toList)]

/-- The names parsed from the set module of the scenario. -/
def scenarioSetKeys : List Str := ["moduleA".toList, "moduleB".toList]

/-- A manifest whose block is indented with four spaces. -/
def spacesManifest : Str := "module m\n\nrequire (\n    moduleA v1.0.0\n)\n".toList

/-- The same manifest with the block indented with a tab. -/
def tabsManifest : Str := "module m\n\nrequire (\n\tmoduleA v1.0.0\n)\n".toList

/-- Two modules whose `go.mod` is `spacesManifest`. -/
def spacesFS : FS := fun p =>
  if p = "get/go.mod" ∨ p = "set/go.mod" then some (Node.file spacesManifest)
  else if p = "get" ∨ p = "set" then some Node.dir
  else none

/-- The entries of a canonical manifest with two lines. -/
def canonicalEntries : List (Str × Str) :=
  [("moduleA".toList, "v1.0.0".toList), ("moduleB".toList, "v2.0.0 // indirect".toList)]

/-- Two modules whose `go.mod` is a canonical manifest. -/
def canonicalFS : FS := fun p =>
  if p = "get/go.mod" ∨ p = "set/go.mod" then
    some (Node.file (canonicalManifest "module m\n\n".toList canonicalEntries "\n".toList))
  else if p = "get" ∨ p = "set" then some Node.dir
  else none

/-- A manifest with a parenthesis in a comment before the block. -/
def commentManifest : Str := "module m // (fork)\n\nrequire (\n\tmoduleA v1.0.0\n)\n".toList

/-- A get module as in the scenario, and a set module whose block is not
closed and whose head has a parenthesis in a comment. -/
def unterminatedFS : FS := fun p =>
  if p = "get/go.mod" then
    some (Node.file "module g\n\nrequire (\n\tmoduleA v1.5.0\n)\n".toList)
  else if p = "set/go.mod" then
    some (Node.file "module s // (fork)\n\nrequire (\n\tmoduleA v1.0.0\n".toList)
  else if p = "get" ∨ p = "set" then some Node.dir
  else none

/-- A get module as in the scenario, and a set module without a block. -/
def noBlockFS : FS := fun p =>
  if p = "get/go.mod" then
    some (Node.file "module g\n\nrequire (\n\tmoduleA v1.5.0\n)\n".toList)
  else if p = "set/go.mod" then some (Node.file "module s\n".toList)
  else if p = "get" ∨ p = "set" then some Node.dir
  else none

/-- A get module whose block has a line without a separator, and a set
module without a block. -/
def badSourceFS : FS := fun p =>
  if p = "get/go.mod" then some (Node.file "module g\n\nrequire (\n\tbadline\n)\n".toList)
  else if p = "set/go.mod" then some (Node.file "module s\n".toList)
  else if p = "get" ∨ p = "set" then some Node.dir
  else none

/-- A manifest whose block has a line without a separator. -/
def badlineManifest : Str :=
  "module m\n\nrequire (\n\tmoduleA v1.0.0\n\tbadline\n)\n".toList

/-- A set module whose manifest is `badlineManifest`, next to the get module
of the scenario. -/
def badlineFS : FS := fun p =>
  if p = "get/go.mod" then
    some (Node.file "module g\n\nrequire (\n\tmoduleA v1.5.0\n)\n".toList)
  else if p = "set/go.mod" then some (Node.file badlineManifest)
  else if p = "get" ∨ p = "set" then some Node.dir
  else none

/-- A manifest whose name and version-spec are separated by two spaces. -/
def doubleSpaceManifest : Str := "module m\n\nrequire (\n\tmoduleA  v1.0.0\n)\n".toList

/-- A block body with a space-indented line and a line with two spaces
after the name. -/
def mixedBody : Str := "\n  moduleA v1.0.0\n\tmoduleB  v2.0.0 // indirect\n".toList

/-- The entries the parser records for `mixedBody`. -/
def mixedEntries : List (Str × Str) :=
  [("moduleA".toList, "v1.0.0".toList), ("moduleB".toList, " v2.0.0 // indirect".toList)]

/-- A manifest with a blank line between two entry lines. -/
def blankLineManifest : Str :=
  "module m\n\nrequire (\n\tmoduleA v1.0.0\n\n\tmoduleB v2.0.0\n)\n".toList

/-- The same manifest without the blank line. -/
def noBlankLineManifest : Str :=
  "module m\n\nrequire (\n\tmoduleA v1.0.0\n\tmoduleB v2.0.0\n)\n".toList

/-- A manifest with an empty block. -/
def emptyBlockManifest : Str := "module m\n\nrequire (\n)\n".toList

/-- A module whose `go.mod` is `spacesManifest`, to be used as both the get
and the set module. -/
def oneModuleFS : FS := fun p =>
  if p = "mod/go.mod" then some (Node.file spacesManifest)
  else if p = "mod" then some Node.dir
  else none

/-- A block body with two lines for `moduleA`. -/
def duplicateBody : Str :=
  "\n\tmoduleA v1.0.0\n\tmoduleB v2.0.0\n\tmoduleA v1.5.0\n".toList

/-! ## `strings.Index` -/

theorem stringsIndex_cons (c : Char) (t sub : Str) :
    stringsIndex (c :: t) sub
      = if sub <+: c :: t then some 0 else (stringsIndex t sub).map Nat.succ := by
  simp [stringsIndex, List.isPrefixOf_iff_prefix]

theorem stringsIndex_nil (sub : Str) :
    stringsIndex [] sub = if sub <+: [] then some 0 else none := by
  simp [stringsIndex, List.isPrefixOf_iff_prefix]

/-- An offset where `sub` occurs, with no occurrence before it, is what
`strings.Index` returns. -/
theorem stringsIndex_of_first (sub : Str) :
    ∀ (s : Str) (i : Nat), sub <+: s.drop i → i ≤ s.length →
      (∀ j, j < i → ¬ sub <+: s.drop j) → stringsIndex s sub = some i
  | [], i, hp, hi, _ => by
    have : i = 0 := by simpa using hi
    subst this
    rw [stringsIndex_nil, if_pos (by simpa using hp)]
  | c :: t, 0, hp, _, _ => by
    rw [stringsIndex_cons, if_pos (by simpa using hp)]
  | c :: t, i + 1, hp, hi, hfirst => by
    have h0 : ¬ sub <+: c :: t := by simpa using hfirst 0 (Nat.succ_pos i)
    rw [stringsIndex_cons, if_neg h0,
      stringsIndex_of_first sub t i (by simpa using hp) (by simpa using hi)
        (fun j hj => by simpa using hfirst (j + 1) (Nat.succ_lt_succ hj))]
    rfl

/-- What `strings.Index` returns is an offset where `sub` occurs, with no
occurrence before it. -/
theorem stringsIndex_some (sub : Str) :
    ∀ (s : Str) (i : Nat), stringsIndex s sub = some i →
      sub <+: s.drop i ∧ i ≤ s.length ∧ ∀ j, j < i → ¬ sub <+: s.drop j
  | [], i, h => by
    rw [stringsIndex_nil] at h
    split at h
    · cases h
      rename_i hp
      exact ⟨by simpa using hp, Nat.le_refl _, fun j hj => absurd hj (Nat.not_lt_zero j)⟩
    · cases h
  | c :: t, i, h => by
    rw [stringsIndex_cons] at h
    split at h
    · cases h
      rename_i hp
      exact ⟨by simpa using hp, Nat.zero_le _, fun j hj => absurd hj (Nat.not_lt_zero j)⟩
    · rename_i hp
      cases hti : stringsIndex t sub with
      | none => rw [hti] at h; cases h
      | some i' =>
        rw [hti] at h
        cases h
        obtain ⟨h1, h2, h3⟩ := stringsIndex_some sub t i' hti
        refine ⟨by simpa using h1, by simpa using h2, ?_⟩
        intro j hj
        cases j with
        | zero => simpa using hp
        | succ j => simpa using h3 j (Nat.lt_of_succ_lt_succ hj)

/-- `strings.Index` returns `-1` only when `sub` occurs nowhere. -/
theorem stringsIndex_none (sub : Str) :
    ∀ (s : Str), stringsIndex s sub = none → ∀ j, ¬ sub <+: s.drop j
  | [], h, j => by
    rw [stringsIndex_nil] at h
    split at h
    · cases h
    · simpa using ‹¬ sub <+: []›
  | c :: t, h, j => by
    rw [stringsIndex_cons] at h
    split at h
    · cases h
    · rename_i hp
      cases hti : stringsIndex t sub with
      | some i' => rw [hti] at h; cases h
      | none =>
        cases j with
        | zero => simpa using hp
        | succ j => simpa using stringsIndex_none sub t hti j

theorem contains_iff_occurs (sub s : Str) : sub <:+: s ↔ ∃ j, sub <+: s.drop j := by
  constructor
  · rintro ⟨a, b, rfl⟩
    exact ⟨a.length, by simp [List.append_assoc]⟩
  · rintro ⟨j, hj⟩
    exact hj.isInfix.trans (List.drop_suffix j s).isInfix

/-- The search succeeds exactly on the texts that contain `sub`. -/
theorem stringsIndex_isSome_iff (s sub : Str) :
    (∃ i, stringsIndex s sub = some i) ↔ sub <:+: s := by
  rw [contains_iff_occurs]
  constructor
  · rintro ⟨i, hi⟩
    exact ⟨i, (stringsIndex_some sub s i hi).1⟩
  · rintro ⟨j, hj⟩
    cases h : stringsIndex s sub with
    | some i => exact ⟨i, rfl⟩
    | none => exact absurd hj (stringsIndex_none sub s h j)

theorem prefix_append_swap {sub u : Str} (X Y : Str) (h : sub <+: u ++ X)
    (hlen : sub.length ≤ u.length) : sub <+: u ++ Y :=
  (List.prefix_of_prefix_length_le h (List.prefix_append u X) hlen).trans (List.prefix_append u Y)

/-- The first occurrence of `sub` does not depend on what follows it. -/
theorem stringsIndex_append_swap (a sub b X : Str)
    (h : stringsIndex (a ++ sub ++ b) sub = some a.length) :
    stringsIndex (a ++ sub ++ X) sub = some a.length := by
  obtain ⟨_, _, hfirst⟩ := stringsIndex_some sub _ _ h
  apply stringsIndex_of_first
  · simp [List.append_assoc]
  · simp
  · intro j hj hp
    apply hfirst j hj
    have hja : j ≤ a.length := Nat.le_of_lt hj
    rw [List.append_assoc, List.drop_append_of_le_length hja, ← List.append_assoc] at hp ⊢
    exact prefix_append_swap X b hp (by simp)

/-- The offset `strings.Index` returns splits the text around the occurrence. -/
theorem stringsIndex_split (s sub : Str) (i : Nat) (h : stringsIndex s sub = some i) :
    ∃ a b, s = a ++ sub ++ b ∧ a.length = i := by
  obtain ⟨⟨b, hb⟩, hi, _⟩ := stringsIndex_some sub s i h
  refine ⟨s.take i, b, ?_, by simp [hi]⟩
  rw [List.append_assoc, hb, List.take_append_drop]

/-- A needle whose last character occurs nowhere else in it is found right
after a text that does not contain it. -/
theorem stringsIndex_append_of_absent (H u rest : Str) (x : Char) (hx : x ∉ u)
    (hH : ¬ (u ++ [x]) <:+: H) :
    stringsIndex (H ++ (u ++ [x]) ++ rest) (u ++ [x]) = some H.length := by
  apply stringsIndex_of_first
  · simp [List.append_assoc]
  · simp
  · intro j hj hp
    have hja : j ≤ H.length := Nat.le_of_lt hj
    rw [List.append_assoc, List.drop_append_of_le_length hja] at hp
    have hdlen : (H.drop j).length = H.length - j := by simp
    by_cases hlen : (u ++ [x]).length ≤ (H.drop j).length
    · apply hH
      exact (List.prefix_of_prefix_length_le hp (List.prefix_append _ _) hlen).isInfix.trans
        (List.drop_suffix j H).isInfix
    · have hlen' : (H.drop j).length ≤ (u ++ [x]).length := by omega
      obtain ⟨w, hw⟩ := List.prefix_of_prefix_length_le (List.prefix_append _ _) hp hlen'
      have hp' : H.drop j ++ w <+: H.drop j ++ ((u ++ [x]) ++ rest) := by rw [hw]; exact hp
      rw [List.prefix_append_right_inj] at hp'
      have hwlen : w.length < (u ++ [x]).length := by
        have := congrArg List.length hw
        simp only [List.length_append] at this
        have : 0 < (H.drop j).length := by rw [hdlen]; omega
        simp only [List.length_append]
        omega
      have hwu : w <+: u :=
        List.prefix_of_prefix_length_le
          (List.prefix_of_prefix_length_le hp' (List.prefix_append _ _) (Nat.le_of_lt hwlen))
          (List.prefix_append u [x]) (by simp at hwlen; omega)
      have hwne : w ≠ [] := by
        rintro rfl
        simp only [List.append_nil] at hw
        rw [hw] at hlen
        exact hlen (Nat.le_refl _)
      have hxw : x ∈ w := by
        have hl : (H.drop j ++ w).getLast? = some x := by rw [hw]; simp
        rw [List.getLast?_append_of_ne_nil _ hwne] at hl
        exact List.mem_of_getLast?_eq_some hl
      exact hx (hwu.subset hxw)

/-- The offset of a character that does not occur before it. -/
theorem stringsIndex_singleton (a b : Str) (x : Char) (hx : x ∉ a) :
    stringsIndex (a ++ x :: b) [x] = some a.length := by
  have h := stringsIndex_append_of_absent a [] b x (List.not_mem_nil x)
    (by
      rintro ⟨p, q, hpq⟩
      apply hx
      rw [← hpq]
      simp)
  simpa [List.append_assoc] using h

/-! ## `strings.TrimSpace` -/

theorem startsClean_append (s t : Str) (hs : s ≠ []) :
    startsClean (s ++ t) = startsClean s := by
  cases s with
  | nil => exact absurd rfl hs
  | cons c s => rfl

theorem endsClean_append (s t : Str) (ht : t ≠ []) :
    endsClean (s ++ t) = endsClean t := by
  unfold endsClean
  rw [List.reverse_append]
  exact startsClean_append _ _ (by simpa using ht)

theorem startsClean_of_initial {s t : Str} (h : s <+: t) (ht : startsClean t = true) :
    startsClean s = true := by
  cases s with
  | nil => rfl
  | cons c s =>
    obtain ⟨r, rfl⟩ := h
    exact ht

theorem dropWhile_of_startsClean (s : Str) (h : startsClean s = true) :
    s.dropWhile unicodeIsSpace = s := by
  cases s with
  | nil => rfl
  | cons c s =>
    have hc : unicodeIsSpace c = false := by simpa [startsClean] using h
    simp [List.dropWhile_cons, hc]

theorem rdropWhile_of_endsClean (s : Str) (h : endsClean s = true) :
    s.rdropWhile unicodeIsSpace = s := by
  unfold List.rdropWhile
  rw [dropWhile_of_startsClean _ h, List.reverse_reverse]

theorem dropWhile_spaces_append (ws s : Str) (hws : ∀ c ∈ ws, unicodeIsSpace c = true)
    (h : startsClean s = true) : (ws ++ s).dropWhile unicodeIsSpace = s := by
  induction ws with
  | nil => exact dropWhile_of_startsClean s h
  | cons c ws ih =>
    have hc : unicodeIsSpace c = true := hws c (List.mem_cons_self _ _)
    rw [List.cons_append, List.dropWhile_cons_of_pos hc]
    exact ih (fun d hd => hws d (List.mem_cons_of_mem _ hd))

theorem rdropWhile_append_spaces (s ws : Str) (hws : ∀ c ∈ ws, unicodeIsSpace c = true)
    (h : endsClean s = true) : (s ++ ws).rdropWhile unicodeIsSpace = s := by
  unfold List.rdropWhile
  rw [List.reverse_append,
    dropWhile_spaces_append ws.reverse s.reverse (fun c hc => hws c (List.mem_reverse.mp hc)) h,
    List.reverse_reverse]

/-- Trimming removes the white space around a non-empty text that neither
begins nor ends with white space. -/
theorem stringsTrimSpace_pad (ws₁ s ws₂ : Str) (hne : s ≠ [])
    (h₁ : ∀ c ∈ ws₁, unicodeIsSpace c = true) (h₂ : ∀ c ∈ ws₂, unicodeIsSpace c = true)
    (hs : startsClean s = true) (he : endsClean s = true) :
    stringsTrimSpace (ws₁ ++ s ++ ws₂) = s := by
  unfold stringsTrimSpace
  rw [List.append_assoc,
    dropWhile_spaces_append ws₁ (s ++ ws₂) h₁ (by rw [startsClean_append s ws₂ hne]; exact hs),
    rdropWhile_append_spaces s ws₂ h₂ he]

theorem startsClean_dropWhile (s : Str) : startsClean (s.dropWhile unicodeIsSpace) = true := by
  induction s with
  | nil => rfl
  | cons c s ih =>
    cases hc : unicodeIsSpace c with
    | true => rw [List.dropWhile_cons_of_pos hc]; exact ih
    | false =>
      rw [List.dropWhile_cons_of_neg (by simp [hc])]
      simp [startsClean, hc]

theorem startsClean_stringsTrimSpace (s : Str) : startsClean (stringsTrimSpace s) = true :=
  startsClean_of_initial (List.rdropWhile_prefix unicodeIsSpace (s.dropWhile unicodeIsSpace))
    (startsClean_dropWhile s)

theorem endsClean_stringsTrimSpace (s : Str) : endsClean (stringsTrimSpace s) = true := by
  unfold endsClean stringsTrimSpace List.rdropWhile
  rw [List.reverse_reverse]
  exact startsClean_dropWhile _

theorem stringsTrimSpace_part (s : Str) : stringsTrimSpace s <:+: s :=
  (List.rdropWhile_prefix unicodeIsSpace (s.dropWhile unicodeIsSpace)).isInfix.trans
    (List.dropWhile_suffix unicodeIsSpace).isInfix

/-! ## `strings.Split` and `strings.SplitN` -/

theorem stringsSplit_ne_nil (s : Str) (sep : Char) : stringsSplit s sep ≠ [] := by
  induction s with
  | nil => simp [stringsSplit]
  | cons c s ih =>
    unfold stringsSplit
    split
    · simp
    · split <;> simp

theorem stringsSplit_of_not_mem (s : Str) (sep : Char) (h : sep ∉ s) :
    stringsSplit s sep = [s] := by
  induction s with
  | nil => rfl
  | cons c s ih =>
    have hc : c ≠ sep := fun e => h (e ▸ List.mem_cons_self _ _)
    have hs : sep ∉ s := fun e => h (List.mem_cons_of_mem _ e)
    simp [stringsSplit, hc, ih hs]

theorem stringsSplit_append_sep (l r : Str) (sep : Char) (h : sep ∉ l) :
    stringsSplit (l ++ sep :: r) sep = l :: stringsSplit r sep := by
  induction l with
  | nil => simp [stringsSplit]
  | cons c l ih =>
    have hc : c ≠ sep := fun e => h (e ▸ List.mem_cons_self _ _)
    have hl : sep ∉ l := fun e => h (List.mem_cons_of_mem _ e)
    simp [stringsSplit, hc, ih hl]

/-- No piece contains the separator, and every piece is made of characters
of the text. -/
theorem stringsSplit_mem (s : Str) (sep : Char) :
    ∀ piece ∈ stringsSplit s sep, sep ∉ piece ∧ ∀ c ∈ piece, c ∈ s := by
  induction s with
  | nil => simp [stringsSplit]
  | cons c s ih =>
    intro piece hp
    unfold stringsSplit at hp
    split at hp
    · rcases List.mem_cons.mp hp with rfl | hp
      · simp
      · obtain ⟨h1, h2⟩ := ih piece hp
        exact ⟨h1, fun d hd => List.mem_cons_of_mem _ (h2 d hd)⟩
    · rename_i hc
      split at hp
      · rename_i heq
        exact absurd heq (stringsSplit_ne_nil s sep)
      · rename_i p ps heq
        rw [heq] at ih
        rcases List.mem_cons.mp hp with rfl | hp
        · obtain ⟨h1, h2⟩ := ih p (List.mem_cons_self _ _)
          refine ⟨?_, ?_⟩
          · intro hmem
            rcases List.mem_cons.mp hmem with e | e
            · exact hc e.symm
            · exact h1 e
          · intro d hd
            rcases List.mem_cons.mp hd with e | e
            · exact e ▸ List.mem_cons_self _ _
            · exact List.mem_cons_of_mem _ (h2 d e)
        · obtain ⟨h1, h2⟩ := ih piece (List.mem_cons_of_mem _ hp)
          exact ⟨h1, fun d hd => List.mem_cons_of_mem _ (h2 d hd)⟩

theorem stringsSplitN2_append_sep (a b : Str) (sep : Char) (h : sep ∉ a) :
    stringsSplitN2 (a ++ sep :: b) sep = [a, b] := by
  induction a with
  | nil => simp [stringsSplitN2]
  | cons c a ih =>
    have hc : c ≠ sep := fun e => h (e ▸ List.mem_cons_self _ _)
    have ha : sep ∉ a := fun e => h (List.mem_cons_of_mem _ e)
    simp [stringsSplitN2, hc, ih ha]

/-- Two parts come only from a text with a separator, cut at the first one. -/
theorem stringsSplitN2_pair (s : Str) (sep : Char) :
    ∀ a b, stringsSplitN2 s sep = [a, b] → s = a ++ sep :: b ∧ sep ∉ a := by
  induction s with
  | nil => intro a b h; simp [stringsSplitN2] at h
  | cons c s ih =>
    intro a b h
    unfold stringsSplitN2 at h
    split at h
    · rename_i hc
      simp only [List.cons.injEq, and_true] at h
      obtain ⟨rfl, rfl⟩ := h
      simp [hc]
    · rename_i hc
      split at h
      · rename_i a' b' heq
        simp only [List.cons.injEq, and_true] at h
        obtain ⟨rfl, rfl⟩ := h
        obtain ⟨rfl, hn⟩ := ih a' b' heq
        refine ⟨by simp, ?_⟩
        intro hmem
        rcases List.mem_cons.mp hmem with e | e
        · exact hc e.symm
        · exact hn e
      · simp at h

/-- The offset of the first occurrence of a character splits the text into
a part without that character, the character, and the rest. -/
theorem stringsIndex_singleton_some (x : Char) :
    ∀ (s : Str) (i : Nat), stringsIndex s [x] = some i →
      ∃ a b, s = a ++ x :: b ∧ a.length = i ∧ x ∉ a
  | [], i, h => by simp [stringsIndex_nil] at h
  | c :: t, i, h => by
    rw [stringsIndex_cons] at h
    split at h
    · rename_i hp
      cases h
      obtain ⟨r, hr⟩ := hp
      simp only [List.singleton_append, List.cons.injEq] at hr
      exact ⟨[], t, by simp [hr.1], rfl, List.not_mem_nil x⟩
    · rename_i hp
      cases hti : stringsIndex t [x] with
      | none => rw [hti] at h; cases h
      | some i' =>
        rw [hti] at h
        cases h
        obtain ⟨a, b, rfl, rfl, hxa⟩ := stringsIndex_singleton_some x t i' hti
        refine ⟨c :: a, b, rfl, rfl, ?_⟩
        intro hmem
        rcases List.mem_cons.mp hmem with e | e
        · exact hp ⟨a ++ x :: b, by simp [e]⟩
        · exact hxa e

/-! ## Entries -/

theorem encodeRequire_eq (m : GoMap) (ks : List Str) :
    encodeRequire m ks
      = ((ks.map fun k => (k, GoMap.get m k)).map entryLine).flatten ++ ['\n'] := by
  have hline : (fun key => "\n\t".toList ++ key ++ " ".toList ++ GoMap.get m key)
      = entryLine ∘ fun k => (k, GoMap.get m k) := by
    funext key
    show ['\n', '\t'] ++ key ++ [' '] ++ GoMap.get m key = _
    simp [entryLine]
  unfold encodeRequire
  rw [List.map_map, hline]
  rfl

theorem startsClean_entry (e : Str × Str) (h : GoodEntry e) :
    startsClean (e.1 ++ ' ' :: e.2) = true := by
  rw [startsClean_append _ _ h.1.1]
  exact h.1.2.1

theorem endsClean_entry (e : Str × Str) (h : GoodEntry e) :
    endsClean (e.1 ++ ' ' :: e.2) = true := by
  have : e.1 ++ ' ' :: e.2 = (e.1 ++ [' ']) ++ e.2 := by simp
  rw [this, endsClean_append _ _ h.2.1]
  exact h.2.2.1

theorem not_mem_entry (e : Str × Str) (c : Char)
    (hk : c ∉ e.1) (hs : c ≠ ' ') (hv : c ∉ e.2) : c ∉ e.1 ++ ' ' :: e.2 := by
  simp only [List.mem_append, List.mem_cons, not_or]
  exact ⟨hk, hs, hv⟩

/-! ## The loop of the parser -/

/-- Lines that trim to `name ++ " " ++ version` with no space in the name
are recorded in order, each assignment in front of the earlier ones. -/
theorem parseLines_entries :
    ∀ (ls : List Str) (es : List (Str × Str)) (m₀ : GoMap),
      List.Forall₂ (fun l e => stringsTrimSpace l = e.1 ++ ' ' :: e.2) ls es →
      (∀ e ∈ es, ' ' ∉ e.1) →
      parseLines ls m₀ = Outcome.ok (es.reverse ++ m₀, es.map Prod.fst)
  | [], [], m₀, _, _ => by simp [parseLines]
  | l :: ls, e :: es, m₀, h, hsp => by
    rw [List.forall₂_cons] at h
    unfold parseLines
    rw [h.1, stringsSplitN2_append_sep _ _ _ (hsp e (List.mem_cons_self _ _))]
    simp only
    rw [parseLines_entries ls es _ h.2 (fun e' he' => hsp e' (List.mem_cons_of_mem _ he'))]
    simp [GoMap.set]

/-- What the loop returns, when it returns: the entries of the lines, all
of them well formed. -/
theorem parseLines_ok :
    ∀ (ls : List Str) (m₀ m : GoMap) (ks : List Str),
      parseLines ls m₀ = Outcome.ok (m, ks) →
      (∀ l ∈ ls, '\n' ∉ l ∧ ')' ∉ l) →
      ∃ es : List (Str × Str), ks = es.map Prod.fst ∧ m = es.reverse ++ m₀ ∧
        (∀ e ∈ es, GoodEntry e) ∧ es.length = ls.length
  | [], m₀, m, ks, h, _ => by
    simp only [parseLines, Outcome.ok.injEq, Prod.mk.injEq] at h
    exact ⟨[], by simp [h.2], by simp [h.1], by simp, rfl⟩
  | l :: ls, m₀, m, ks, h, hl => by
    unfold parseLines at h
    split at h
    · rename_i name version hsplit
      obtain ⟨htrim, hname⟩ := stringsSplitN2_pair _ _ name version hsplit
      split at h
      · rename_i m' names hrec
        simp only [Outcome.ok.injEq, Prod.mk.injEq] at h
        obtain ⟨rfl, rfl⟩ := h
        obtain ⟨es, rfl, rfl, hgood, hlen⟩ :=
          parseLines_ok ls _ m' names hrec (fun l' hl' => hl l' (List.mem_cons_of_mem _ hl'))
        have hsub : ∀ c ∈ name ++ ' ' :: version, c ∈ l := by
          intro c hc
          rw [← htrim] at hc
          exact (stringsTrimSpace_part l).subset hc
        have hs := startsClean_stringsTrimSpace l
        have he := endsClean_stringsTrimSpace l
        rw [htrim] at hs he
        have hnl := (hl l (List.mem_cons_self _ _)).1
        have hcl := (hl l (List.mem_cons_self _ _)).2
        have hname_ne : name ≠ [] := by
          rintro rfl
          simp [startsClean, unicodeIsSpace] at hs
        have hver_ne : version ≠ [] := by
          rintro rfl
          have : endsClean (name ++ [' ']) = true := he
          rw [endsClean_append _ _ (by simp)] at this
          simp [endsClean, startsClean, unicodeIsSpace] at this
        have hgn : GoodName name := by
          refine ⟨hname_ne, ?_, hname, ?_, ?_⟩
          · rw [startsClean_append _ _ hname_ne] at hs
            exact hs
          · exact fun hc => hnl (hsub _ (List.mem_append_left _ hc))
          · exact fun hc => hcl (hsub _ (List.mem_append_left _ hc))
        have hgv : GoodVersion version := by
          refine ⟨hver_ne, ?_, ?_, ?_⟩
          · have : name ++ ' ' :: version = (name ++ [' ']) ++ version := by simp
            rw [this, endsClean_append _ _ hver_ne] at he
            exact he
          · exact fun hc => hnl (hsub _ (List.mem_append_right _ (List.mem_cons_of_mem _ hc)))
          · exact fun hc => hcl (hsub _ (List.mem_append_right _ (List.mem_cons_of_mem _ hc)))
        refine ⟨(name, version) :: es, by simp, by simp [GoMap.set], ?_, by simp [hlen]⟩
        intro e he'
        rcases List.mem_cons.mp he' with rfl | he'
        · exact ⟨hgn, hgv⟩
        · exact hgood e he'
      · cases h
      · cases h
    · cases h

/-! ## Parsing a block of encoded lines -/

theorem requireOpen_length : requireOpen.length = 9 := rfl

theorem requireOpen_eq : requireOpen = "require ".toList ++ ['('] := rfl

theorem requireClose_eq : requireClose = [')'] := rfl

theorem not_mem_entryLines (es : List (Str × Str)) (c : Char) (hn : c ≠ '\n') (ht : c ≠ '\t')
    (hs : c ≠ ' ') (hes : ∀ e ∈ es, c ∉ e.1 ∧ c ∉ e.2) : c ∉ (es.map entryLine).flatten := by
  intro hc
  rw [List.mem_flatten] at hc
  obtain ⟨l, hl, hcl⟩ := hc
  rw [List.mem_map] at hl
  obtain ⟨e, he, rfl⟩ := hl
  simp only [entryLine, List.mem_cons, List.mem_append] at hcl
  rcases hcl with h | h | h | h | h
  · exact hn h
  · exact ht h
  · exact (hes e he).1 h
  · exact hs h
  · exact (hes e he).2 h

theorem stringsSplit_entryLines :
    ∀ (rest : List (Str × Str)) (first : Str), '\n' ∉ first →
      (∀ e ∈ rest, GoodEntry e) →
      stringsSplit (first ++ (rest.map entryLine).flatten) '\n'
        = first :: rest.map fun e => '\t' :: (e.1 ++ ' ' :: e.2)
  | [], first, hf, _ => by simpa using stringsSplit_of_not_mem first _ hf
  | e :: rest, first, hf, hgood => by
    have he := hgood e (List.mem_cons_self _ _)
    have hline : '\n' ∉ '\t' :: (e.1 ++ ' ' :: e.2) := by
      intro h
      rcases List.mem_cons.mp h with h | h
      · exact absurd h (by decide)
      · exact not_mem_entry e _ he.1.2.2.2.1 (by decide) he.2.2.2.1 h
    have hshape : first ++ ((e :: rest).map entryLine).flatten
        = first ++ '\n' :: (('\t' :: (e.1 ++ ' ' :: e.2)) ++ (rest.map entryLine).flatten) := by
      simp [entryLine]
    rw [hshape, stringsSplit_append_sep _ _ _ hf,
      stringsSplit_entryLines rest _ hline (fun e' he' => hgood e' (List.mem_cons_of_mem _ he'))]
    simp

theorem endsClean_entryLines :
    ∀ (rest : List (Str × Str)) (first : Str), first ≠ [] → endsClean first = true →
      (∀ e ∈ rest, GoodEntry e) →
      endsClean (first ++ (rest.map entryLine).flatten) = true
  | [], first, _, hf, _ => by simpa using hf
  | e :: rest, first, hne, _, hgood => by
    have he := hgood e (List.mem_cons_self _ _)
    have hshape : first ++ ((e :: rest).map entryLine).flatten
        = (first ++ entryLine e) ++ (rest.map entryLine).flatten := by simp
    rw [hshape]
    apply endsClean_entryLines rest _ (by simp [hne])
    · have : first ++ entryLine e = (first ++ '\n' :: '\t' :: (e.1 ++ [' '])) ++ e.2 := by
        simp [entryLine]
      rw [this, endsClean_append _ _ he.2.1]
      exact he.2.2.1
    · exact fun e' he' => hgood e' (List.mem_cons_of_mem _ he')

/-- The lines the parser sees in a block of encoded lines. -/
theorem stringsSplit_block (e : Str × Str) (rest : List (Str × Str))
    (hgood : ∀ e' ∈ e :: rest, GoodEntry e') :
    stringsSplit (stringsTrimSpace (((e :: rest).map entryLine).flatten ++ ['\n'])) '\n'
      = (e.1 ++ ' ' :: e.2) :: rest.map fun e' => '\t' :: (e'.1 ++ ' ' :: e'.2) := by
  have he := hgood e (List.mem_cons_self _ _)
  have hrest : ∀ e' ∈ rest, GoodEntry e' := fun e' he' => hgood e' (List.mem_cons_of_mem _ he')
  have hne : e.1 ++ ' ' :: e.2 ≠ [] := by simp
  have hshape : ((e :: rest).map entryLine).flatten ++ ['\n']
      = ['\n', '\t'] ++ ((e.1 ++ ' ' :: e.2) ++ (rest.map entryLine).flatten) ++ ['\n'] := by
    simp [entryLine]
  rw [hshape, stringsTrimSpace_pad]
  · apply stringsSplit_entryLines rest _ _ hrest
    exact not_mem_entry e _ he.1.2.2.2.1 (by decide) he.2.2.2.1
  · simp
  · intro c hc
    simp only [List.mem_cons, List.mem_singleton, List.not_mem_nil, or_false] at hc
    rcases hc with rfl | rfl <;> decide
  · intro c hc
    simp only [List.mem_singleton] at hc
    subst hc
    decide
  · rw [startsClean_append _ _ hne]
    exact startsClean_entry e he
  · exact endsClean_entryLines rest _ hne (endsClean_entry e he) hrest

theorem parseLines_block (e : Str × Str) (rest : List (Str × Str))
    (hgood : ∀ e' ∈ e :: rest, GoodEntry e') (m₀ : GoMap) :
    parseLines ((e.1 ++ ' ' :: e.2) :: rest.map fun e' => '\t' :: (e'.1 ++ ' ' :: e'.2)) m₀
      = Outcome.ok ((e :: rest).reverse ++ m₀, (e :: rest).map Prod.fst) := by
  apply parseLines_entries
  · rw [List.forall₂_cons]
    refine ⟨?_, ?_⟩
    · have he := hgood e (List.mem_cons_self _ _)
      have := stringsTrimSpace_pad [] (e.1 ++ ' ' :: e.2) [] (by simp) (by simp) (by simp)
        (startsClean_entry e he) (endsClean_entry e he)
      simpa using this
    · rw [List.forall₂_map_left_iff]
      apply List.forall₂_same.mpr
      intro e' he'
      have hg := hgood e' (List.mem_cons_of_mem _ he')
      have := stringsTrimSpace_pad ['\t'] (e'.1 ++ ' ' :: e'.2) [] (by simp)
        (by intro c hc; simp only [List.mem_singleton] at hc; subst hc; decide) (by simp)
        (startsClean_entry e' hg) (endsClean_entry e' hg)
      simpa using this
  · exact fun e' he' => (hgood e' he').1.2.2.1

/-- Parsing a text whose first `require (` is followed by encoded lines of
well-formed entries, a line break and `)` returns those entries. -/
theorem parseModString_block (pre post : Str) (es : List (Str × Str)) (hes : es ≠ [])
    (hgood : ∀ e ∈ es, GoodEntry e)
    (hopen : stringsIndex
        (pre ++ requireOpen ++ ((es.map entryLine).flatten ++ ['\n']) ++ ')' :: post) requireOpen
      = some pre.length) :
    parseModString (pre ++ requireOpen ++ ((es.map entryLine).flatten ++ ['\n']) ++ ')' :: post)
      = Outcome.ok (es.reverse, es.map Prod.fst) := by
  have hclose : ')' ∉ (es.map entryLine).flatten ++ ['\n'] := by
    intro h
    rcases List.mem_append.mp h with h | h
    · exact not_mem_entryLines es _ (by decide) (by decide) (by decide)
        (fun e he => ⟨(hgood e he).1.2.2.2.2, (hgood e he).2.2.2.2⟩) h
    · simp only [List.mem_singleton] at h
      exact absurd h (by decide)
  have hdrop : (pre ++ requireOpen ++ ((es.map entryLine).flatten ++ ['\n']) ++ ')' :: post).drop
      (pre.length + 9) = ((es.map entryLine).flatten ++ ['\n']) ++ ')' :: post := by
    rw [← requireOpen_length, ← List.length_append, List.append_assoc,
      List.drop_left]
  unfold parseModString
  rw [hopen]
  simp only
  rw [hdrop, requireClose_eq, stringsIndex_singleton _ _ _ hclose]
  simp only
  rw [List.take_left]
  cases es with
  | nil => exact absurd rfl hes
  | cons e rest =>
    rw [stringsSplit_block e rest hgood, parseLines_block e rest hgood]
    simp

/-- What `parseFileToRequireMap` returns, when it returns without error:
the text is split at its first `require (` and the first `)` after it, and
the results are the entries of a non-empty list of well-formed entries. -/
theorem parseModString_ok (M : Str) (m : GoMap) (ks : List Str)
    (h : parseModString M = Outcome.ok (m, ks)) :
    ∃ (pre block post : Str) (es : List (Str × Str)),
      M = pre ++ requireOpen ++ block ++ ')' :: post ∧
      stringsIndex M requireOpen = some pre.length ∧ ')' ∉ block ∧
      es ≠ [] ∧ ks = es.map Prod.fst ∧ m = es.reverse ∧ ∀ e ∈ es, GoodEntry e := by
  unfold parseModString at h
  split at h
  · cases h
  · rename_i openIndex hopen
    simp only at h
    split at h
    · cases h
    · rename_i closeIndex hclose
      obtain ⟨pre, b, rfl, rfl⟩ := stringsIndex_split _ _ _ hopen
      have hdrop : (pre ++ requireOpen ++ b).drop (pre.length + 9) = b := by
        rw [← requireOpen_length, ← List.length_append, List.drop_left]
      rw [hdrop] at hclose h
      rw [requireClose_eq] at hclose
      obtain ⟨block, post, rfl, rfl, hblock⟩ := stringsIndex_singleton_some _ _ _ hclose
      rw [List.take_left] at h
      obtain ⟨es, hks, hm, hgood, hlen⟩ := parseLines_ok _ _ _ _ h (by
        intro l hl
        obtain ⟨h1, h2⟩ := stringsSplit_mem _ _ l hl
        exact ⟨h1, fun hc => hblock ((stringsTrimSpace_part block).subset (h2 _ hc))⟩)
      refine ⟨pre, block, post, es, by simp, hopen, hblock, ?_, hks, by simpa using hm, hgood⟩
      rintro rfl
      exact stringsSplit_ne_nil _ _ (List.length_eq_zero.mp hlen.symm)

/-! ## Maps and the merge loop -/

theorem GoMap.get?_cons (k' v : Str) (m : GoMap) (k : Str) :
    GoMap.get? ((k', v) :: m) k = if k' = k then some v else GoMap.get? m k := rfl

theorem GoMap.mem_of_get? : ∀ (m : GoMap) (k v : Str), GoMap.get? m k = some v → (k, v) ∈ m
  | [], _, _, h => by cases h
  | (k', v') :: m, k, v, h => by
    rw [GoMap.get?_cons] at h
    split at h
    · rename_i hk
      cases h
      subst hk
      exact List.mem_cons_self _ _
    · exact List.mem_cons_of_mem _ (GoMap.mem_of_get? m k v h)

theorem GoMap.get?_isSome_iff : ∀ (m : GoMap) (k : Str),
    (GoMap.get? m k).isSome = true ↔ k ∈ m.map Prod.fst
  | [], k => by simp [GoMap.get?]
  | (k', v') :: m, k => by
    rw [GoMap.get?_cons]
    split
    · rename_i hk
      simp [hk]
    · rename_i hk
      rw [GoMap.get?_isSome_iff m k]
      simp [Ne.symm hk]

theorem GoMap.get?_of_mem_nodup : ∀ (m : GoMap) (k v : Str),
    (m.map Prod.fst).Nodup → (k, v) ∈ m → GoMap.get? m k = some v
  | [], _, _, _, h => by cases h
  | (k', v') :: m, k, v, hnd, h => by
    rw [List.map_cons, List.nodup_cons] at hnd
    rw [GoMap.get?_cons]
    rcases List.mem_cons.mp h with e | h
    · cases e
      simp
    · have hk : k' ≠ k := by
        rintro rfl
        exact hnd.1 (List.mem_map.mpr ⟨(k', v), h, rfl⟩)
      rw [if_neg hk]
      exact GoMap.get?_of_mem_nodup m k v hnd.2 h

/-- A name of the list that the get map knows ends with the get map's value. -/
theorem mergeLoop_hit (getMap : GoMap) :
    ∀ (setKeys : List Str) (setMap : GoMap) (name version : Str), name ∈ setKeys →
      GoMap.get? getMap name = some version →
      GoMap.get? (mergeLoop getMap setMap setKeys) name = some version
  | key :: keys, setMap, name, version, hmem, hget => by
    by_cases hk : name ∈ keys
    · unfold mergeLoop
      split <;> exact mergeLoop_hit getMap keys _ name version hk hget
    · have hkey : key = name := by
        rcases List.mem_cons.mp hmem with e | e
        · exact e.symm
        · exact absurd e hk
      subst hkey
      unfold mergeLoop
      rw [hget]
      simp only
      clear hmem hk
      generalize hs : GoMap.set setMap key version = s
      have hsk : GoMap.get? s key = some version := by
        rw [← hs]
        simp [GoMap.set, GoMap.get?_cons]
      clear hs
      induction keys generalizing s with
      | nil => exact hsk
      | cons k' ks ih =>
        unfold mergeLoop
        split
        · exact ih s hsk
        · rename_i val hval
          apply ih
          simp only [GoMap.set, GoMap.get?_cons]
          split
          · rename_i e
            subst e
            rw [hget] at hval
            exact hval.symm
          · exact hsk

/-- A name that the get map does not know, or that is not in the list,
keeps what the set map had. -/
theorem mergeLoop_miss (getMap : GoMap) :
    ∀ (setKeys : List Str) (setMap : GoMap) (name : Str),
      (name ∉ setKeys ∨ GoMap.get? getMap name = none) →
      GoMap.get? (mergeLoop getMap setMap setKeys) name = GoMap.get? setMap name
  | [], _, _, _ => rfl
  | key :: keys, setMap, name, h => by
    have h' : name ∉ keys ∨ GoMap.get? getMap name = none :=
      h.imp (fun hn hk => hn (List.mem_cons_of_mem _ hk)) id
    unfold mergeLoop
    split
    · exact mergeLoop_miss getMap keys setMap name h'
    · rename_i val hval
      rw [mergeLoop_miss getMap keys _ name h']
      simp only [GoMap.set, GoMap.get?_cons]
      have hk : key ≠ name := by
        rintro rfl
        rcases h with h | h
        · exact h (List.mem_cons_self _ _)
        · rw [h] at hval
          cases hval
      rw [if_neg hk]

/-! ## The encoder -/

/-- The text the encoder writes, for a text split at its first `require (`
and at its first `)`. -/
theorem encodeModString_eq (pre b a c : Str) (m : GoMap) (ks : List Str)
    (hopen : stringsIndex (pre ++ requireOpen ++ b) requireOpen = some pre.length)
    (hsplit : pre ++ requireOpen ++ b = a ++ ')' :: c) (ha : ')' ∉ a) :
    encodeModString (pre ++ requireOpen ++ b) m ks
      = Except.ok (pre ++ requireOpen ++ encodeRequire m ks ++ ')' :: c) := by
  have hclose : stringsIndex (pre ++ requireOpen ++ b) requireClose = some a.length := by
    rw [hsplit, requireClose_eq]
    exact stringsIndex_singleton a c _ ha
  have htake : (pre ++ requireOpen ++ b).take (pre.length + 9) = pre ++ requireOpen := by
    rw [← requireOpen_length, ← List.length_append, List.take_left]
  have hdrop : (pre ++ requireOpen ++ b).drop a.length = ')' :: c := by
    rw [hsplit, List.drop_left]
  unfold encodeModString
  rw [hopen]
  simp only
  rw [hclose]
  simp only
  rw [htake, hdrop]

/-! ## The merge -/

theorem matchGoMods_ok (fs : FS) (getGoModPath setGoModPath : String)
    (getMap : GoMap) (getKeys : List Str) (setMap : GoMap) (setKeys : List Str)
    (hget : parseFileToRequireMap fs getGoModPath = Outcome.ok (getMap, getKeys))
    (hset : parseFileToRequireMap fs setGoModPath = Outcome.ok (setMap, setKeys)) :
    matchGoMods fs getGoModPath setGoModPath
      = ⟨(encodeModFile fs setGoModPath (mergeLoop getMap setMap setKeys) setKeys).1, [], false⟩ := by
  unfold matchGoMods
  rw [hget]
  simp only
  rw [hset]

/-- C1: when both manifests parse, the map the target is rewritten with
gives, for every name of the target's ordered name list that the source's
map has, exactly the source's version-spec. -/
theorem merge_takes_source_version (fs : FS) (getGoModPath setGoModPath : String)
    (getMap : GoMap) (getKeys : List Str) (setMap : GoMap) (setKeys : List Str)
    (name version : Str)
    (hget : parseFileToRequireMap fs getGoModPath = Outcome.ok (getMap, getKeys))
    (hset : parseFileToRequireMap fs setGoModPath = Outcome.ok (setMap, setKeys))
    (hname : name ∈ setKeys) (hversion : GoMap.get? getMap name = some version) :
    (matchGoMods fs getGoModPath setGoModPath).fs
        = (encodeModFile fs setGoModPath (mergeLoop getMap setMap setKeys) setKeys).1 ∧
      GoMap.get? (mergeLoop getMap setMap setKeys) name = some version ∧
      GoMap.get (mergeLoop getMap setMap setKeys) name = version := by
  have h := mergeLoop_hit getMap setKeys setMap name version hname hversion
  refine ⟨?_, h, ?_⟩
  · rw [matchGoMods_ok fs _ _ _ _ _ _ hget hset]
  · simp [GoMap.get, h]

/-- C1 on the scenario of the specification: `moduleA` takes the source's
version-spec, suffix included. -/
theorem merge_takes_source_version_witness :
    parseFileToRequireMap scenarioFS "get/go.mod"
        = Outcome.ok (scenarioGetMap, ["moduleA".toList, "moduleC".toList]) ∧
      parseFileToRequireMap scenarioFS "set/go.mod"
        = Outcome.ok (scenarioSetMap, scenarioSetKeys) ∧
      "moduleA".toList ∈ scenarioSetKeys ∧
      GoMap.get? scenarioGetMap "moduleA".toList = some "v1.5.0 // indirect".toList ∧
      GoMap.get (mergeLoop scenarioGetMap scenarioSetMap scenarioSetKeys) "moduleA".toList
        = "v1.5.0 // indirect".toList :=
  ⟨by decide, by decide, by decide, by decide,
    (merge_takes_source_version scenarioFS "get/go.mod" "set/go.mod" scenarioGetMap
      ["moduleA".toList, "moduleC".toList] scenarioSetMap scenarioSetKeys "moduleA".toList
      "v1.5.0 // indirect".toList (by decide) (by decide) (by decide) (by decide)).2.2⟩

/-- C2: when both manifests parse, the map the target is rewritten with
gives, for every name that the source's map does not have, what the
target's own map gives: the target's version-spec is unchanged. -/
theorem merge_keeps_target_version (fs : FS) (getGoModPath setGoModPath : String)
    (getMap : GoMap) (getKeys : List Str) (setMap : GoMap) (setKeys : List Str) (name : Str)
    (hget : parseFileToRequireMap fs getGoModPath = Outcome.ok (getMap, getKeys))
    (hset : parseFileToRequireMap fs setGoModPath = Outcome.ok (setMap, setKeys))
    (hmiss : GoMap.get? getMap name = none) :
    (matchGoMods fs getGoModPath setGoModPath).fs
        = (encodeModFile fs setGoModPath (mergeLoop getMap setMap setKeys) setKeys).1 ∧
      GoMap.get? (mergeLoop getMap setMap setKeys) name = GoMap.get? setMap name ∧
      GoMap.get (mergeLoop getMap setMap setKeys) name = GoMap.get setMap name := by
  have h := mergeLoop_miss getMap setKeys setMap name (Or.inr hmiss)
  refine ⟨?_, h, ?_⟩
  · rw [matchGoMods_ok fs _ _ _ _ _ _ hget hset]
  · simp [GoMap.get, h]

/-- C2 on the scenario of the specification: `moduleB`, which the source does
not pin, keeps its version-spec. -/
theorem merge_keeps_target_version_witness :
    parseFileToRequireMap scenarioFS "get/go.mod"
        = Outcome.ok (scenarioGetMap, ["moduleA".toList, "moduleC".toList]) ∧
      parseFileToRequireMap scenarioFS "set/go.mod"
        = Outcome.ok (scenarioSetMap, scenarioSetKeys) ∧
      GoMap.get? scenarioGetMap "moduleB".toList = none ∧
      GoMap.get? (mergeLoop scenarioGetMap scenarioSetMap scenarioSetKeys) "moduleB".toList
        = GoMap.get? scenarioSetMap "moduleB".toList :=
  ⟨by decide, by decide, by decide,
    (merge_keeps_target_version scenarioFS "get/go.mod" "set/go.mod" scenarioGetMap
      ["moduleA".toList, "moduleC".toList] scenarioSetMap scenarioSetKeys "moduleB".toList
      (by decide) (by decide) (by decide)).2.1⟩

theorem parseFileToRequireMap_ok (fs : FS) (path : String) (m : GoMap) (ks : List Str)
    (h : parseFileToRequireMap fs path = Outcome.ok (m, ks)) :
    ∃ M, readFile fs path = some M ∧ parseModString M = Outcome.ok (m, ks) := by
  unfold parseFileToRequireMap at h
  split at h
  · cases h
  · rename_i M hM
    exact ⟨M, hM, h⟩

/-- C3: when both manifests parse, the merge inserts and removes nothing.
The map the target is rewritten with has the keys of the target's parsed
map; the name list handed to the encoder is the target's list; the lines of
the rewritten block are the lines of the names of that list, in order; and
a name that only the source's map has is no key of the merged map and the
name of no line of the rewritten block. -/
theorem merge_adds_and_removes_nothing (fs : FS) (getGoModPath setGoModPath : String)
    (getMap : GoMap) (getKeys : List Str) (setMap : GoMap) (setKeys : List Str)
    (hget : parseFileToRequireMap fs getGoModPath = Outcome.ok (getMap, getKeys))
    (hset : parseFileToRequireMap fs setGoModPath = Outcome.ok (setMap, setKeys)) :
    (matchGoMods fs getGoModPath setGoModPath).fs
        = (encodeModFile fs setGoModPath (mergeLoop getMap setMap setKeys) setKeys).1 ∧
      (∀ k, (GoMap.get? (mergeLoop getMap setMap setKeys) k).isSome
        = (GoMap.get? setMap k).isSome) ∧
      ∃ entries : List (Str × Str),
        entries.map Prod.fst = setKeys ∧
        encodeRequire (mergeLoop getMap setMap setKeys) setKeys
          = (entries.map entryLine).flatten ++ ['\n'] ∧
        ∀ k, (GoMap.get? getMap k).isSome = true → GoMap.get? setMap k = none →
          GoMap.get? (mergeLoop getMap setMap setKeys) k = none ∧ k ∉ setKeys ∧
            ∀ e ∈ entries, e.1 ≠ k := by
  obtain ⟨M, _, hM⟩ := parseFileToRequireMap_ok fs _ _ _ hset
  obtain ⟨pre, block, post, es, _, _, _, _, hks, hm, _⟩ := parseModString_ok M _ _ hM
  have hkeys : ∀ k, k ∈ setKeys → (GoMap.get? setMap k).isSome = true := by
    intro k hk
    rw [GoMap.get?_isSome_iff, hm, List.map_reverse, List.mem_reverse, ← hks]
    exact hk
  have hnotin : ∀ k, GoMap.get? setMap k = none → k ∉ setKeys := by
    intro k hk hmem
    have := hkeys k hmem
    rw [hk] at this
    cases this
  refine ⟨by rw [matchGoMods_ok fs _ _ _ _ _ _ hget hset], ?_, ?_⟩
  · intro k
    by_cases hk : k ∈ setKeys
    · cases hg : GoMap.get? getMap k with
      | none => rw [mergeLoop_miss getMap setKeys setMap k (Or.inr hg)]
      | some v => rw [mergeLoop_hit getMap setKeys setMap k v hk hg, hkeys k hk]; rfl
    · rw [mergeLoop_miss getMap setKeys setMap k (Or.inl hk)]
  · refine ⟨setKeys.map fun k => (k, GoMap.get (mergeLoop getMap setMap setKeys) k), ?_,
      encodeRequire_eq _ _, ?_⟩
    · rw [List.map_map]
      exact List.map_id _
    · intro k _ hs
      have hk := hnotin k hs
      refine ⟨?_, hk, ?_⟩
      · rw [mergeLoop_miss getMap setKeys setMap k (Or.inl hk), hs]
      · intro e he heq
        rw [List.mem_map] at he
        obtain ⟨k', hk', rfl⟩ := he
        exact hk (heq ▸ hk')

/-- C3 on the scenario of the specification: the merged map has the keys of
the target's map, and the rewritten block holds `moduleA` and `moduleB` in
that order and no `moduleC`. -/
theorem merge_adds_and_removes_nothing_witness :
    parseFileToRequireMap scenarioFS "get/go.mod"
        = Outcome.ok (scenarioGetMap, ["moduleA".toList, "moduleC".toList]) ∧
      parseFileToRequireMap scenarioFS "set/go.mod"
        = Outcome.ok (scenarioSetMap, scenarioSetKeys) ∧
      (∀ k, (GoMap.get? (mergeLoop scenarioGetMap scenarioSetMap scenarioSetKeys) k).isSome
        = (GoMap.get? scenarioSetMap k).isSome) ∧
      (Match pathJoin scenarioFS "get" "set").fs "set/go.mod"
        = some (Node.file
            "module s\n\nrequire (\n\tmoduleA v1.5.0 // indirect\n\tmoduleB v2.0.0\n)\n".toList) :=
  ⟨by decide, by decide,
    (merge_adds_and_removes_nothing scenarioFS "get/go.mod" "set/go.mod" scenarioGetMap
      ["moduleA".toList, "moduleC".toList] scenarioSetMap scenarioSetKeys
      (by decide) (by decide)).2.1, by decide⟩

/-! ## Parsing what the encoder wrote -/

theorem readFile_writeFile (fs : FS) (path : String) (content : Str) :
    readFile (writeFile fs path content) path = some content := by
  simp [readFile, writeFile]

/-- Every value of a parsed map is a well-formed version-spec. -/
theorem parseModString_good_values (M : Str) (m : GoMap) (ks : List Str)
    (h : parseModString M = Outcome.ok (m, ks)) (k v : Str) (hv : GoMap.get? m k = some v) :
    GoodVersion v := by
  obtain ⟨_, _, _, es, _, _, _, _, _, hm, hgood⟩ := parseModString_ok M m ks h
  have hmem := GoMap.mem_of_get? m k v hv
  rw [hm, List.mem_reverse] at hmem
  exact (hgood _ hmem).2

/-- The write of the encoder on a file that parses: the text up to and
including the first `require (`, the encoded lines, and a rest that begins
with `)`. -/
theorem encodeModFile_of_parse (fs : FS) (path : String) (setMap : GoMap) (setKeys : List Str)
    (hset : parseFileToRequireMap fs path = Outcome.ok (setMap, setKeys))
    (m : GoMap) (ks : List Str) :
    ∃ pre rest c : Str, readFile fs path = some (pre ++ requireOpen ++ rest) ∧
      (∀ X, stringsIndex (pre ++ requireOpen ++ X) requireOpen = some pre.length) ∧
      encodeModFile fs path m ks
        = (writeFile fs path (pre ++ requireOpen ++ encodeRequire m ks ++ ')' :: c), none) := by
  obtain ⟨M, hread, hM⟩ := parseFileToRequireMap_ok fs _ _ _ hset
  obtain ⟨pre, block, post, es, rfl, hopen, _, _, _, _, _⟩ := parseModString_ok M _ _ hM
  have hopen' : stringsIndex (pre ++ requireOpen ++ (block ++ ')' :: post)) requireOpen
      = some pre.length := by
    rw [← List.append_assoc]
    exact hopen
  have hinfix : requireClose <:+: pre ++ requireOpen ++ (block ++ ')' :: post) :=
    ⟨pre ++ requireOpen ++ block, post, by simp [requireClose_eq]⟩
  obtain ⟨j, hj⟩ := (stringsIndex_isSome_iff _ _).mpr hinfix
  rw [requireClose_eq] at hj
  obtain ⟨a, c, hsplit, _, ha⟩ := stringsIndex_singleton_some _ _ _ hj
  refine ⟨pre, block ++ ')' :: post, c, by rw [hread, List.append_assoc], ?_, ?_⟩
  · exact fun X => stringsIndex_append_swap pre requireOpen _ X hopen'
  · unfold encodeModFile
    rw [hread]
    simp only
    rw [List.append_assoc (pre ++ requireOpen) block,
      encodeModString_eq pre _ a c m ks hopen' hsplit ha]

/-- After the rewrite of a target that parses, with a map whose values for
the target's names are well-formed version-specs, the target parses again,
to the same names in the same order. -/
theorem parse_after_rewrite (fs : FS) (path : String) (setMap : GoMap) (setKeys : List Str)
    (hset : parseFileToRequireMap fs path = Outcome.ok (setMap, setKeys)) (m : GoMap)
    (hm : ∀ k ∈ setKeys, GoodVersion (GoMap.get m k)) :
    parseFileToRequireMap (encodeModFile fs path m setKeys).1 path
      = Outcome.ok ((setKeys.map fun k => (k, GoMap.get m k)).reverse, setKeys) := by
  obtain ⟨pre, rest, c, _, hopen, hwrite⟩ := encodeModFile_of_parse fs path _ _ hset m setKeys
  obtain ⟨M, _, hM⟩ := parseFileToRequireMap_ok fs _ _ _ hset
  obtain ⟨_, _, _, es, _, _, _, hes, hks, _, hgood⟩ := parseModString_ok M _ _ hM
  rw [hwrite]
  unfold parseFileToRequireMap
  rw [readFile_writeFile]
  simp only
  rw [encodeRequire_eq]
  have hopen' := hopen
    ((((setKeys.map fun k => (k, GoMap.get m k)).map entryLine).flatten ++ ['\n']) ++ ')' :: c)
  rw [← List.append_assoc] at hopen'
  rw [parseModString_block pre c _ _ _ hopen']
  · rw [List.map_map]
    congr 2
    exact List.map_id _
  · rw [hks]
    simpa using hes
  · intro e he
    rw [List.mem_map] at he
    obtain ⟨k, hk, rfl⟩ := he
    refine ⟨?_, hm k hk⟩
    rw [hks, List.mem_map] at hk
    obtain ⟨e', he', rfl⟩ := hk
    exact (hgood e' he').1

/-- The values the merged map gives for the target's names are well-formed
version-specs. -/
theorem mergeLoop_good_values (fs : FS) (getGoModPath setGoModPath : String)
    (getMap : GoMap) (getKeys : List Str) (setMap : GoMap) (setKeys : List Str)
    (hget : parseFileToRequireMap fs getGoModPath = Outcome.ok (getMap, getKeys))
    (hset : parseFileToRequireMap fs setGoModPath = Outcome.ok (setMap, setKeys)) :
    ∀ k ∈ setKeys, GoodVersion (GoMap.get (mergeLoop getMap setMap setKeys) k) := by
  obtain ⟨G, _, hG⟩ := parseFileToRequireMap_ok fs _ _ _ hget
  obtain ⟨M, _, hM⟩ := parseFileToRequireMap_ok fs _ _ _ hset
  obtain ⟨_, _, _, es, _, _, _, _, hks, hm, _⟩ := parseModString_ok M _ _ hM
  intro k hk
  cases hg : GoMap.get? getMap k with
  | some v =>
    have := mergeLoop_hit getMap setKeys setMap k v hk hg
    simp only [GoMap.get, this, Option.getD_some]
    exact parseModString_good_values G _ _ hG k v hg
  | none =>
    have hmiss := mergeLoop_miss getMap setKeys setMap k (Or.inr hg)
    have hsome : (GoMap.get? setMap k).isSome = true := by
      rw [GoMap.get?_isSome_iff, hm, List.map_reverse, List.mem_reverse, ← hks]
      exact hk
    obtain ⟨v, hv⟩ := Option.isSome_iff_exists.mp hsome
    simp only [GoMap.get, hmiss, hv, Option.getD_some]
    exact parseModString_good_values M _ _ hM k v hv

/-- C4: on every run of `Match` that succeeds (nothing is logged, no
panic), the target parsed before the run, and the target as the run leaves
it parses again, to the ordered name list parsed before the run. -/
theorem rewrite_preserves_names (join : String → String → String) (fs : FS)
    (getPath setPath : String)
    (hlog : (Match join fs getPath setPath).log = [])
    (hpanic : (Match join fs getPath setPath).panicked = false) :
    ∃ (m : GoMap) (ks : List Str) (m' : GoMap),
      parseFileToRequireMap fs (join setPath "go.mod") = Outcome.ok (m, ks) ∧
      parseFileToRequireMap (Match join fs getPath setPath).fs (join setPath "go.mod")
        = Outcome.ok (m', ks) := by
  unfold Match at hlog hpanic ⊢
  split at hlog
  · cases hlog
  split at hlog
  · cases hlog
  split at hlog
  · cases hlog
  split at hlog
  · cases hlog
  split at hlog
  · cases hlog
  rename_i h1 h2 h3 h4 h5
  rw [if_neg h1, if_neg h2, if_neg h3, if_neg h4, if_neg h5] at hpanic ⊢
  cases hget : parseFileToRequireMap fs (join getPath "go.mod") with
  | panic => simp [matchGoMods, hget] at hpanic
  | error e => simp [matchGoMods, hget] at hlog
  | ok r =>
    obtain ⟨getMap, getKeys⟩ := r
    cases hset : parseFileToRequireMap fs (join setPath "go.mod") with
    | panic => simp [matchGoMods, hget, hset] at hpanic
    | error e => simp [matchGoMods, hget, hset] at hlog
    | ok r' =>
      obtain ⟨setMap, setKeys⟩ := r'
      refine ⟨setMap, setKeys,
        (setKeys.map fun k => (k, GoMap.get (mergeLoop getMap setMap setKeys) k)).reverse,
        rfl, ?_⟩
      rw [matchGoMods_ok fs _ _ _ _ _ _ hget hset]
      exact parse_after_rewrite fs _ setMap setKeys hset _
        (mergeLoop_good_values fs _ _ _ _ _ _ hget hset)

/-- C4 on the scenario of the specification. -/
theorem rewrite_preserves_names_witness :
    (Match pathJoin scenarioFS "get" "set").log = [] ∧
      (Match pathJoin scenarioFS "get" "set").panicked = false ∧
      ∃ (m : GoMap) (ks : List Str) (m' : GoMap),
        parseFileToRequireMap scenarioFS (pathJoin "set" "go.mod") = Outcome.ok (m, ks) ∧
        parseFileToRequireMap (Match pathJoin scenarioFS "get" "set").fs
          (pathJoin "set" "go.mod") = Outcome.ok (m', ks) :=
  ⟨by decide, by decide,
    rewrite_preserves_names pathJoin scenarioFS "get" "set" (by decide) (by decide)⟩

/-! ## Canonical manifests -/

theorem encodeRequire_congr (m m' : GoMap) (ks : List Str)
    (h : ∀ k ∈ ks, GoMap.get m k = GoMap.get m' k) : encodeRequire m ks = encodeRequire m' ks := by
  unfold encodeRequire
  congr 2
  apply List.map_congr_left
  intro k hk
  rw [h k hk]

/-- Encoding the entries of a list with distinct names, read back from the
map the parser builds for them, gives their lines. -/
theorem encodeRequire_entries (es : List (Str × Str)) (hnodup : (es.map Prod.fst).Nodup) :
    encodeRequire es.reverse (es.map Prod.fst) = (es.map entryLine).flatten ++ ['\n'] := by
  have : ∀ e ∈ es, ((fun k => (k, GoMap.get es.reverse k)) ∘ Prod.fst) e = id e := by
    intro e he
    have hnd : (es.reverse.map Prod.fst).Nodup := by
      rw [List.map_reverse, List.nodup_reverse]
      exact hnodup
    have := GoMap.get?_of_mem_nodup es.reverse e.1 e.2 hnd (List.mem_reverse.mpr he)
    simp [GoMap.get, this]
  have hmap : (es.map Prod.fst).map (fun k => (k, GoMap.get es.reverse k)) = es := by
    rw [List.map_map, List.map_congr_left this, List.map_id]
  rw [encodeRequire_eq, hmap]

theorem canonicalManifest_index (H T : Str) (es : List (Str × Str))
    (hH : ¬ requireOpen <:+: H) :
    stringsIndex (canonicalManifest H es T) requireOpen = some H.length := by
  unfold canonicalManifest
  rw [List.append_assoc, requireOpen_eq]
  exact stringsIndex_append_of_absent H _ _ '(' (by decide) (by rw [← requireOpen_eq]; exact hH)

/-- The parser reads the entries of a canonical manifest. -/
theorem canonicalManifest_parse (H T : Str) (es : List (Str × Str))
    (hH : ¬ requireOpen <:+: H) (hes : es ≠ []) (hgood : ∀ e ∈ es, GoodEntry e) :
    parseModString (canonicalManifest H es T) = Outcome.ok (es.reverse, es.map Prod.fst) :=
  parseModString_block H T es hes hgood (canonicalManifest_index H T es hH)

/-- The encoder replaces the lines of a canonical manifest. -/
theorem canonicalManifest_encode (H T : Str) (es : List (Str × Str))
    (hclose : ')' ∉ H) (hH : ¬ requireOpen <:+: H) (hgood : ∀ e ∈ es, GoodEntry e)
    (m : GoMap) (ks : List Str) :
    encodeModString (canonicalManifest H es T) m ks
      = Except.ok (H ++ requireOpen ++ encodeRequire m ks ++ ')' :: T) := by
  have hidx := canonicalManifest_index H T es hH
  unfold canonicalManifest at hidx ⊢
  rw [List.append_assoc] at hidx ⊢
  refine encodeModString_eq H _ (H ++ requireOpen ++ ((es.map entryLine).flatten ++ ['\n'])) T
    m ks hidx (by simp) ?_
  intro h
  simp only [List.mem_append, List.mem_singleton] at h
  rcases h with (h | h) | h | h
  · exact hclose h
  · exact absurd h (by decide)
  · exact not_mem_entryLines es _ (by decide) (by decide) (by decide)
      (fun e he => ⟨(hgood e he).1.2.2.2.2, (hgood e he).2.2.2.2⟩) h
  · exact absurd h (by decide)

/-! ## Round trips -/

/-- C5, as stated, fails: a manifest whose one block line is indented with
spaces parses, and encoding it with its own parsed map and name list gives
the line indented with a tab, a text different from the manifest. -/
theorem roundtrip_fails_on_space_indent :
    parseModString spacesManifest
        = Outcome.ok ([("moduleA".toList, "v1.0.0".toList)], ["moduleA".toList]) ∧
      encodeModString spacesManifest [("moduleA".toList, "v1.0.0".toList)] ["moduleA".toList]
        = Except.ok tabsManifest ∧
      tabsManifest ≠ spacesManifest :=
  ⟨by decide, rfl, by decide⟩

/-- C5, amended: for a manifest in the encoder's layout (a head without
`)` and without `require (`, then `require (`, then at least one line
`"\n\t" ++ name ++ " " ++ version` with well-formed names and version-specs
and pairwise distinct names, then `"\n)"` and a tail), the parser succeeds
and encoding the manifest with the map and the name list it returns gives
the manifest back. -/
theorem roundtrip_canonical (H T : Str) (es : List (Str × Str))
    (hclose : ')' ∉ H) (hH : ¬ requireOpen <:+: H) (hes : es ≠ [])
    (hgood : ∀ e ∈ es, GoodEntry e) (hnodup : (es.map Prod.fst).Nodup) :
    ∃ (m : GoMap) (ks : List Str),
      parseModString (canonicalManifest H es T) = Outcome.ok (m, ks) ∧
      encodeModString (canonicalManifest H es T) m ks
        = Except.ok (canonicalManifest H es T) := by
  refine ⟨es.reverse, es.map Prod.fst, canonicalManifest_parse H T es hH hes hgood, ?_⟩
  rw [canonicalManifest_encode H T es hclose hH hgood, encodeRequire_entries es hnodup]
  rfl

/-- C5, amended, on a canonical manifest with two entries. -/
theorem roundtrip_canonical_witness :
    ')' ∉ "module m\n\n".toList ∧ ¬ requireOpen <:+: "module m\n\n".toList ∧
      canonicalEntries ≠ [] ∧ (∀ e ∈ canonicalEntries, GoodEntry e) ∧
      (canonicalEntries.map Prod.fst).Nodup ∧
      ∃ (m : GoMap) (ks : List Str),
        parseModString (canonicalManifest "module m\n\n".toList canonicalEntries "\n".toList)
          = Outcome.ok (m, ks) ∧
        encodeModString (canonicalManifest "module m\n\n".toList canonicalEntries "\n".toList)
            m ks
          = Except.ok (canonicalManifest "module m\n\n".toList canonicalEntries "\n".toList) :=
  ⟨by decide, by decide, by decide, by decide, by decide,
    roundtrip_canonical "module m\n\n".toList "\n".toList canonicalEntries
      (by decide) (by decide) (by decide) (by decide) (by decide)⟩

theorem writeFile_same (fs : FS) (path : String) (content : Str)
    (h : fs path = some (Node.file content)) : writeFile fs path content = fs := by
  funext p
  unfold writeFile
  split
  · rename_i hp
    rw [hp, h]
  · rfl

theorem readFile_of_file (fs : FS) (path : String) (content : Str)
    (h : fs path = some (Node.file content)) : readFile fs path = some content := by
  simp [readFile, h]

/-- Merging a canonical manifest with itself writes it back. -/
theorem matchGoMods_self (fs : FS) (getGoModPath setGoModPath : String) (H T : Str)
    (es : List (Str × Str))
    (hget : fs getGoModPath = some (Node.file (canonicalManifest H es T)))
    (hset : fs setGoModPath = some (Node.file (canonicalManifest H es T)))
    (hclose : ')' ∉ H) (hH : ¬ requireOpen <:+: H) (hes : es ≠ [])
    (hgood : ∀ e ∈ es, GoodEntry e) (hnodup : (es.map Prod.fst).Nodup) :
    matchGoMods fs getGoModPath setGoModPath = ⟨fs, [], false⟩ := by
  have hparse := canonicalManifest_parse H T es hH hes hgood
  have hpg : parseFileToRequireMap fs getGoModPath
      = Outcome.ok (es.reverse, es.map Prod.fst) := by
    unfold parseFileToRequireMap
    rw [readFile_of_file fs _ _ hget]
    exact hparse
  have hps : parseFileToRequireMap fs setGoModPath
      = Outcome.ok (es.reverse, es.map Prod.fst) := by
    unfold parseFileToRequireMap
    rw [readFile_of_file fs _ _ hset]
    exact hparse
  have hmerge : encodeRequire (mergeLoop es.reverse es.reverse (es.map Prod.fst))
      (es.map Prod.fst) = encodeRequire es.reverse (es.map Prod.fst) := by
    apply encodeRequire_congr
    intro k hk
    have hsome : (GoMap.get? es.reverse k).isSome = true := by
      rw [GoMap.get?_isSome_iff, List.map_reverse, List.mem_reverse]
      exact hk
    obtain ⟨v, hv⟩ := Option.isSome_iff_exists.mp hsome
    simp [GoMap.get, mergeLoop_hit es.reverse (es.map Prod.fst) es.reverse k v hk hv, hv]
  have hwrite : encodeModFile fs setGoModPath
      (mergeLoop es.reverse es.reverse (es.map Prod.fst)) (es.map Prod.fst) = (fs, none) := by
    unfold encodeModFile
    rw [readFile_of_file fs _ _ hset]
    simp only
    rw [canonicalManifest_encode H T es hclose hH hgood, hmerge, encodeRequire_entries es hnodup]
    simp only
    have : H ++ requireOpen ++ ((es.map entryLine).flatten ++ ['\n']) ++ ')' :: T
        = canonicalManifest H es T := rfl
    rw [this, writeFile_same fs _ _ hset]
  rw [matchGoMods_ok fs _ _ _ _ _ _ hpg hps, hwrite]

/-- C6, as stated, fails: with the space-indented manifest as the content of
both `go.mod` files, `Match` leaves in the target the tab-indented text. -/
theorem match_self_fails_on_space_indent :
    spacesFS "get/go.mod" = some (Node.file spacesManifest) ∧
      spacesFS "set/go.mod" = some (Node.file spacesManifest) ∧
      (Match pathJoin spacesFS "get" "set").fs "set/go.mod" = some (Node.file tabsManifest) ∧
      tabsManifest ≠ spacesManifest :=
  ⟨by decide, by decide, by decide, by decide⟩

/-- C6, amended: when the source and the target `go.mod` both hold the same
manifest in the encoder's layout (as in C5, amended), `Match` leaves every
file as it was, the target included; and when the flags are set and the two
directories exist, the run logs nothing and does not panic. -/
theorem match_self_canonical (join : String → String → String) (fs : FS)
    (getPath setPath : String) (H T : Str) (es : List (Str × Str))
    (hget : fs (join getPath "go.mod") = some (Node.file (canonicalManifest H es T)))
    (hset : fs (join setPath "go.mod") = some (Node.file (canonicalManifest H es T)))
    (hclose : ')' ∉ H) (hH : ¬ requireOpen <:+: H) (hes : es ≠ [])
    (hgood : ∀ e ∈ es, GoodEntry e) (hnodup : (es.map Prod.fst).Nodup) :
    (Match join fs getPath setPath).fs = fs ∧
      (Match join fs getPath setPath).fs (join setPath "go.mod")
        = some (Node.file (canonicalManifest H es T)) ∧
      (getPath ≠ "" → setPath ≠ "" → fs getPath ≠ none → fs setPath ≠ none →
        (Match join fs getPath setPath).log = [] ∧
          (Match join fs getPath setPath).panicked = false) := by
  have hself := matchGoMods_self fs _ _ H T es hget hset hclose hH hes hgood hnodup
  have hfs : (Match join fs getPath setPath).fs = fs := by
    unfold Match
    split
    · rfl
    split
    · rfl
    split
    · rfl
    split
    · rfl
    split
    · rfl
    rw [hself]
  refine ⟨hfs, by rw [hfs, hset], ?_⟩
  intro h1 h2 h3 h4
  unfold Match
  rw [if_neg (by simp [h1, h2]), if_neg h3, if_neg (by simp [hget]), if_neg h4,
    if_neg (by simp [hset]), hself]
  exact ⟨rfl, rfl⟩

/-- C6, amended, on two modules with the same canonical manifest. -/
theorem match_self_canonical_witness :
    canonicalFS (pathJoin "get" "go.mod")
        = some (Node.file (canonicalManifest "module m\n\n".toList canonicalEntries "\n".toList)) ∧
      canonicalFS (pathJoin "set" "go.mod")
        = some (Node.file (canonicalManifest "module m\n\n".toList canonicalEntries "\n".toList)) ∧
      ')' ∉ "module m\n\n".toList ∧ ¬ requireOpen <:+: "module m\n\n".toList ∧
      canonicalEntries ≠ [] ∧ (∀ e ∈ canonicalEntries, GoodEntry e) ∧
      (canonicalEntries.map Prod.fst).Nodup ∧
      (Match pathJoin canonicalFS "get" "set").fs = canonicalFS :=
  ⟨by decide, by decide, by decide, by decide, by decide, by decide, by decide,
    (match_self_canonical pathJoin canonicalFS "get" "set" "module m\n\n".toList "\n".toList
      canonicalEntries (by decide) (by decide) (by decide) (by decide) (by decide) (by decide)
      (by decide)).1⟩

/-! ## The encoder's output -/

/-- C7: on a target text that contains `require (` and `)`, for every map
and every name list, `encodeModFile` writes the text up to and including
the first `require (`, then for each name in order a line break, a tab, the
name, a space and the map's value for the name, then a line break, then a
suffix of the target text that begins with `)`; for the empty list the body
is the line break alone. -/
theorem encodeModFile_writes (fs : FS) (path : String) (text : Str) (m : GoMap)
    (ks : List Str) (hread : readFile fs path = some text)
    (hopen : requireOpen <:+: text) (hclose : requireClose <:+: text) :
    ∃ pre post trailer : Str,
      text = pre ++ requireOpen ++ post ∧
      (∀ j, j < pre.length → ¬ requireOpen <+: text.drop j) ∧
      trailer <:+ text ∧ trailer.head? = some ')' ∧
      encodeModFile fs path m ks
        = (writeFile fs path
            (pre ++ requireOpen
              ++ (ks.map fun k => "\n\t".toList ++ k ++ " ".toList ++ GoMap.get m k).flatten
              ++ "\n".toList ++ trailer), none) ∧
      encodeModFile fs path m []
        = (writeFile fs path (pre ++ requireOpen ++ "\n".toList ++ trailer), none) := by
  obtain ⟨i, hi⟩ := (stringsIndex_isSome_iff text requireOpen).mpr hopen
  obtain ⟨j, hj⟩ := (stringsIndex_isSome_iff text requireClose).mpr hclose
  obtain ⟨pre, post, rfl, rfl⟩ := stringsIndex_split _ _ _ hi
  obtain ⟨_, _, hfirst⟩ := stringsIndex_some _ _ _ hi
  rw [requireClose_eq] at hj
  obtain ⟨a, c, hsplit, _, ha⟩ := stringsIndex_singleton_some _ _ _ hj
  have henc : ∀ ks', encodeModFile fs path m ks'
      = (writeFile fs path (pre ++ requireOpen ++ encodeRequire m ks' ++ ')' :: c), none) := by
    intro ks'
    unfold encodeModFile
    rw [hread]
    simp only
    rw [encodeModString_eq pre post a c m ks' hi hsplit ha]
  refine ⟨pre, post, ')' :: c, rfl, hfirst, ?_, rfl, ?_, ?_⟩
  · rw [hsplit]
    exact List.suffix_append a _
  · rw [henc ks]
    simp [encodeRequire, List.append_assoc]
  · rw [henc []]
    simp [encodeRequire, List.append_assoc]

/-- C7 on the set module of the scenario. -/
theorem encodeModFile_writes_witness :
    readFile scenarioFS "set/go.mod"
        = some "module s\n\nrequire (\n\tmoduleA v1.0.0\n\tmoduleB v2.0.0\n)\n".toList ∧
      requireOpen <:+: "module s\n\nrequire (\n\tmoduleA v1.0.0\n\tmoduleB v2.0.0\n)\n".toList ∧
      requireClose <:+: "module s\n\nrequire (\n\tmoduleA v1.0.0\n\tmoduleB v2.0.0\n)\n".toList ∧
      ∃ pre post trailer : Str,
        "module s\n\nrequire (\n\tmoduleA v1.0.0\n\tmoduleB v2.0.0\n)\n".toList
          = pre ++ requireOpen ++ post ∧
        (∀ j, j < pre.length → ¬ requireOpen <+:
          "module s\n\nrequire (\n\tmoduleA v1.0.0\n\tmoduleB v2.0.0\n)\n".toList.drop j) ∧
        trailer <:+ "module s\n\nrequire (\n\tmoduleA v1.0.0\n\tmoduleB v2.0.0\n)\n".toList ∧
        trailer.head? = some ')' ∧
        encodeModFile scenarioFS "set/go.mod" scenarioGetMap scenarioSetKeys
          = (writeFile scenarioFS "set/go.mod"
              (pre ++ requireOpen
                ++ (scenarioSetKeys.map fun k =>
                    "\n\t".toList ++ k ++ " ".toList ++ GoMap.get scenarioGetMap k).flatten
                ++ "\n".toList ++ trailer), none) ∧
        encodeModFile scenarioFS "set/go.mod" scenarioGetMap []
          = (writeFile scenarioFS "set/go.mod" (pre ++ requireOpen ++ "\n".toList ++ trailer),
              none) :=
  ⟨by decide, by decide, by decide,
    encodeModFile_writes scenarioFS "set/go.mod" _ scenarioGetMap scenarioSetKeys
      (by decide) (by decide) (by decide)⟩

/-- C8, on the code: in `commentManifest` the first `)` (offset 17) comes
before the first `require (` (offset 20).  The parser reads the block after
the marker, but the trailer the encoder keeps starts at offset 17, so the
text it writes for the parsed map and names repeats the text from the
comment's `)` to the end of the file after the rebuilt body. -/
theorem encoder_trailer_from_first_paren :
    stringsIndex commentManifest requireOpen = some 20 ∧
      stringsIndex commentManifest requireClose = some 17 ∧
      parseModString commentManifest
        = Outcome.ok ([("moduleA".toList, "v1.0.0".toList)], ["moduleA".toList]) ∧
      encodeModString commentManifest [("moduleA".toList, "v1.0.0".toList)] ["moduleA".toList]
        = Except.ok ("module m // (fork)\n\nrequire (\n\tmoduleA v1.0.0\n".toList
            ++ ")\n\nrequire (\n\tmoduleA v1.0.0\n)\n".toList) ∧
      "module m // (fork)\n\nrequire (\n\tmoduleA v1.0.0\n".toList
          ++ ")\n\nrequire (\n\tmoduleA v1.0.0\n)\n".toList ≠ commentManifest :=
  ⟨by decide, by decide, by decide, rfl, by decide⟩

/-! ## Errors -/

/-- C9, on the code: the set module's block is not closed, so parsing it
returns an error, which `Match` logs; the run goes on, and `encodeModFile`,
which looks for `)` in the whole text, finds the one in the comment and
rewrites the file. -/
theorem target_parse_error_still_writes :
    parseFileToRequireMap unterminatedFS (pathJoin "set" "go.mod")
        = Outcome.error Err.formattingErrors ∧
      (Match pathJoin unterminatedFS "get" "set").log
        = [LogMsg.errorParsingSet Err.formattingErrors] ∧
      unterminatedFS (pathJoin "set" "go.mod")
        = some (Node.file "module s // (fork)\n\nrequire (\n\tmoduleA v1.0.0\n".toList) ∧
      (Match pathJoin unterminatedFS "get" "set").fs (pathJoin "set" "go.mod")
        = some (Node.file
            "module s // (fork)\n\nrequire (\n)\n\nrequire (\n\tmoduleA v1.0.0\n".toList) ∧
      (Match pathJoin unterminatedFS "get" "set").fs (pathJoin "set" "go.mod")
        ≠ unterminatedFS (pathJoin "set" "go.mod") :=
  ⟨by decide, by decide, by decide, by decide, by decide⟩

theorem stringsIndex_eq_none (s sub : Str) (h : ¬ sub <:+: s) : stringsIndex s sub = none := by
  cases hi : stringsIndex s sub with
  | none => rfl
  | some i => exact absurd ((stringsIndex_isSome_iff s sub).mp ⟨i, hi⟩) h

theorem parseModString_no_marker (text : Str) (h : ¬ requireOpen <:+: text) :
    parseModString text = Outcome.error Err.noRequireList := by
  unfold parseModString
  rw [stringsIndex_eq_none _ _ h]

theorem encodeModString_no_marker (text : Str) (m : GoMap) (ks : List Str)
    (h : ¬ requireOpen <:+: text) :
    encodeModString text m ks = Except.error Err.noRequireList := by
  unfold encodeModString
  rw [stringsIndex_eq_none _ _ h]

theorem matchGoMods_no_marker (fs : FS) (getGoModPath setGoModPath : String)
    (getText setText : Str) (hget : readFile fs getGoModPath = some getText)
    (hset : readFile fs setGoModPath = some setText)
    (h : ¬ requireOpen <:+: getText ∨ ¬ requireOpen <:+: setText) :
    (matchGoMods fs getGoModPath setGoModPath).fs = fs ∧
      ((matchGoMods fs getGoModPath setGoModPath).panicked = true ∨
        (matchGoMods fs getGoModPath setGoModPath).log ≠ []) ∧
      (parseModString getText ≠ Outcome.panic →
        (matchGoMods fs getGoModPath setGoModPath).panicked = false ∧
          (matchGoMods fs getGoModPath setGoModPath).log ≠ []) := by
  have hpg : parseFileToRequireMap fs getGoModPath = parseModString getText := by
    unfold parseFileToRequireMap
    rw [hget]
  have hps : parseFileToRequireMap fs setGoModPath = parseModString setText := by
    unfold parseFileToRequireMap
    rw [hset]
  unfold matchGoMods
  rw [hpg, hps]
  cases hg : parseModString getText with
  | panic => simp
  | error e => simp
  | ok r =>
    obtain ⟨getMap, getKeys⟩ := r
    have hs : ¬ requireOpen <:+: setText := by
      rcases h with h | h
      · rw [parseModString_no_marker _ h] at hg
        cases hg
      · exact h
    rw [parseModString_no_marker _ hs]
    simp only
    have henc : ∀ m ks, encodeModFile fs setGoModPath m ks = (fs, some Err.noRequireList) := by
      intro m ks
      unfold encodeModFile
      rw [hset]
      simp only
      rw [encodeModString_no_marker _ _ _ hs]
    rw [henc]
    simp

/-- When the source or the target `go.mod` text does not contain
`require (`, the run of `Match` writes nothing: the file system after the
run is the file system before it.  The run ends in a panic or with an error
logged; unless the parse of the source manifest panics, an error is logged
and the run does not panic. -/
theorem match_without_marker (join : String → String → String) (fs : FS)
    (getPath setPath : String) (getText setText : Str)
    (hget : readFile fs (join getPath "go.mod") = some getText)
    (hset : readFile fs (join setPath "go.mod") = some setText)
    (h : ¬ requireOpen <:+: getText ∨ ¬ requireOpen <:+: setText) :
    (Match join fs getPath setPath).fs = fs ∧
      (Match join fs getPath setPath).fs (join setPath "go.mod")
        = some (Node.file setText) ∧
      ((Match join fs getPath setPath).panicked = true ∨
        (Match join fs getPath setPath).log ≠ []) ∧
      (parseModString getText ≠ Outcome.panic →
        (Match join fs getPath setPath).panicked = false ∧
          (Match join fs getPath setPath).log ≠ []) := by
  have hm := matchGoMods_no_marker fs _ _ getText setText hget hset h
  have hfile : fs (join setPath "go.mod") = some (Node.file setText) := by
    unfold readFile at hset
    split at hset
    · rename_i content hc
      cases hset
      exact hc
    · cases hset
  have hmain : (Match join fs getPath setPath).fs = fs ∧
      ((Match join fs getPath setPath).panicked = true ∨
        (Match join fs getPath setPath).log ≠ []) ∧
      (parseModString getText ≠ Outcome.panic →
        (Match join fs getPath setPath).panicked = false ∧
          (Match join fs getPath setPath).log ≠ []) := by
    unfold Match
    split
    · simp
    split
    · simp
    split
    · simp
    split
    · simp
    split
    · simp
    exact hm
  exact ⟨hmain.1, by rw [hmain.1, hfile], hmain.2.1, hmain.2.2⟩

/-- A run on a set module without a block: nothing is written and an error is
logged. -/
theorem match_without_marker_witness :
    readFile noBlockFS (pathJoin "get" "go.mod")
        = some "module g\n\nrequire (\n\tmoduleA v1.5.0\n)\n".toList ∧
      readFile noBlockFS (pathJoin "set" "go.mod") = some "module s\n".toList ∧
      (¬ requireOpen <:+: "module g\n\nrequire (\n\tmoduleA v1.5.0\n)\n".toList ∨
        ¬ requireOpen <:+: "module s\n".toList) ∧
      (Match pathJoin noBlockFS "get" "set").fs = noBlockFS ∧
      (Match pathJoin noBlockFS "get" "set").log ≠ [] :=
  ⟨by decide, by decide, by decide,
    (match_without_marker pathJoin noBlockFS "get" "set"
      "module g\n\nrequire (\n\tmoduleA v1.5.0\n)\n".toList "module s\n".toList
      (by decide) (by decide) (by decide)).1,
    ((match_without_marker pathJoin noBlockFS "get" "set"
      "module g\n\nrequire (\n\tmoduleA v1.5.0\n)\n".toList "module s\n".toList
      (by decide) (by decide) (by decide)).2.2.2 (by decide)).2⟩

/-- C10, on the code: the set module's manifest has no `require (`, and the
get module's block has the line `badline`.  The run parses the get module
first, reads `split[1]` out of range and panics: it does not fail with an
error, nothing is logged, and the parse of the set module that would report
the missing marker is never reached.  The set module's manifest is
unchanged. -/
theorem missing_marker_run_panics :
    readFile badSourceFS (pathJoin "set" "go.mod") = some "module s\n".toList ∧
      ¬ requireOpen <:+: "module s\n".toList ∧
      parseFileToRequireMap badSourceFS (pathJoin "get" "go.mod") = Outcome.panic ∧
      (Match pathJoin badSourceFS "get" "set").panicked = true ∧
      (Match pathJoin badSourceFS "get" "set").log = [] ∧
      (Match pathJoin badSourceFS "get" "set").fs (pathJoin "set" "go.mod")
        = badSourceFS (pathJoin "set" "go.mod") :=
  ⟨by decide, by decide, by decide, by decide, by decide, by decide⟩

/-! ## The parser's outcomes -/

theorem stringsSplitN2_of_not_mem (s : Str) (sep : Char) (h : sep ∉ s) :
    stringsSplitN2 s sep = [s] := by
  induction s with
  | nil => rfl
  | cons c s ih =>
    have hc : c ≠ sep := fun e => h (e ▸ List.mem_cons_self _ _)
    have hs : sep ∉ s := fun e => h (List.mem_cons_of_mem _ e)
    simp [stringsSplitN2, hc, ih hs]

/-- The loop of the parser never returns an error. -/
theorem parseLines_ne_error :
    ∀ (ls : List Str) (m : GoMap) (e : Err), parseLines ls m ≠ Outcome.error e
  | [], m, e => by simp [parseLines]
  | l :: ls, m, e => by
    unfold parseLines
    split
    · rename_i name version _
      have ih := parseLines_ne_error ls (GoMap.set m name version)
      split
      · simp
      · rename_i e' he'
        exact absurd he' (ih e')
      · simp
    · simp

/-- A line that trims to a text without a space makes the loop panic. -/
theorem parseLines_panic :
    ∀ (ls : List Str) (m : GoMap) (l : Str), l ∈ ls → ' ' ∉ stringsTrimSpace l →
      parseLines ls m = Outcome.panic
  | l' :: ls, m, l, hl, hsp => by
    unfold parseLines
    rcases List.mem_cons.mp hl with rfl | hl
    · rw [stringsSplitN2_of_not_mem _ _ hsp]
    · split
      · rename_i name version _
        rw [parseLines_panic ls (GoMap.set m name version) l hl hsp]
      · rfl

/-- A text that opens with its first `require (` after `pre` and has its
first `)` after `body` is parsed as the lines of the trimmed `body`. -/
theorem parseModString_body (pre body post : Str)
    (hopen : stringsIndex (pre ++ requireOpen ++ body ++ ')' :: post) requireOpen
      = some pre.length)
    (hclose : ')' ∉ body) :
    parseModString (pre ++ requireOpen ++ body ++ ')' :: post)
      = parseLines (stringsSplit (stringsTrimSpace body) '\n') [] := by
  have hdrop : (pre ++ requireOpen ++ body ++ ')' :: post).drop (pre.length + 9)
      = body ++ ')' :: post := by
    rw [← requireOpen_length, ← List.length_append, List.append_assoc, List.drop_left]
  unfold parseModString
  rw [hopen]
  simp only
  rw [hdrop, requireClose_eq, stringsIndex_singleton _ _ _ hclose]
  simp only
  rw [List.take_left]

theorem mem_iff_singleton_contained (x : Char) (s : Str) : [x] <:+: s ↔ x ∈ s := by
  constructor
  · rintro ⟨a, b, rfl⟩
    simp
  · intro h
    obtain ⟨a, b, rfl⟩ := List.append_of_mem h
    exact ⟨a, b, by simp⟩

/-- C11: on a manifest text, the parser returns an error exactly when the
text does not contain `require (`, or contains no `)` after the end of its
first `require (` (whatever stands before that marker, a `)` included); the
error is then the one for the missing list, respectively the one for
formatting errors. -/
theorem parse_error_iff (text : Str) :
    ((∃ e, parseModString text = Outcome.error e) ↔
      (¬ requireOpen <:+: text ∨
        ∃ pre post : Str, text = pre ++ requireOpen ++ post ∧
          (∀ j, j < pre.length → ¬ requireOpen <+: text.drop j) ∧ ')' ∉ post)) ∧
    (¬ requireOpen <:+: text → parseModString text = Outcome.error Err.noRequireList) ∧
    (∀ pre post : Str, text = pre ++ requireOpen ++ post →
      (∀ j, j < pre.length → ¬ requireOpen <+: text.drop j) → ')' ∉ post →
      parseModString text = Outcome.error Err.formattingErrors) := by
  have hright : ∀ pre post : Str, text = pre ++ requireOpen ++ post →
      (∀ j, j < pre.length → ¬ requireOpen <+: text.drop j) → ')' ∉ post →
      parseModString text = Outcome.error Err.formattingErrors := by
    intro pre post htext hfirst hpost
    have hopen : stringsIndex text requireOpen = some pre.length := by
      apply stringsIndex_of_first _ _ _ _ _ hfirst
      · rw [htext]
        simp [List.append_assoc]
      · rw [htext]
        simp
    have hdrop : text.drop (pre.length + 9) = post := by
      rw [htext, ← requireOpen_length, ← List.length_append, List.drop_left]
    unfold parseModString
    rw [hopen]
    simp only
    rw [hdrop, stringsIndex_eq_none post requireClose
      (by rw [requireClose_eq, mem_iff_singleton_contained]; exact hpost)]
  refine ⟨⟨?_, ?_⟩, parseModString_no_marker text, hright⟩
  · rintro ⟨e, he⟩
    unfold parseModString at he
    split at he
    · rename_i hnone
      left
      intro hin
      obtain ⟨i, hi⟩ := (stringsIndex_isSome_iff text requireOpen).mpr hin
      rw [hi] at hnone
      cases hnone
    · rename_i openIndex hopen
      simp only at he
      split at he
      · rename_i hnone
        right
        obtain ⟨pre, post, htext, hlen⟩ := stringsIndex_split _ _ _ hopen
        obtain ⟨_, _, hfirst⟩ := stringsIndex_some _ _ _ hopen
        refine ⟨pre, post, htext, by rw [hlen]; exact hfirst, ?_⟩
        have hdrop : text.drop (openIndex + 9) = post := by
          rw [htext, ← hlen, ← requireOpen_length, ← List.length_append, List.drop_left]
        rw [hdrop] at hnone
        intro hin
        obtain ⟨i, hi⟩ := (stringsIndex_isSome_iff post requireClose).mpr
          (by rw [requireClose_eq, mem_iff_singleton_contained]; exact hin)
        rw [hi] at hnone
        cases hnone
      · exact absurd he (parseLines_ne_error _ _ e)
  · rintro (h | ⟨pre, post, htext, hfirst, hpost⟩)
    · exact ⟨_, parseModString_no_marker text h⟩
    · exact ⟨_, hright pre post htext hfirst hpost⟩

/-- C11 on a text whose only `)` stands before the marker: the parser
returns the error for formatting errors. -/
theorem parse_error_iff_witness :
    (∀ j, j < "module s // (fork)\n\n".toList.length → ¬ requireOpen <+:
        ("module s // (fork)\n\n".toList ++ requireOpen
          ++ "\n\tmoduleA v1.0.0\n".toList).drop j) ∧
      ')' ∈ "module s // (fork)\n\n".toList ∧ ')' ∉ "\n\tmoduleA v1.0.0\n".toList ∧
      parseModString
          ("module s // (fork)\n\n".toList ++ requireOpen ++ "\n\tmoduleA v1.0.0\n".toList)
        = Outcome.error Err.formattingErrors :=
  ⟨by decide, by decide, by decide,
    (parse_error_iff
      ("module s // (fork)\n\n".toList ++ requireOpen ++ "\n\tmoduleA v1.0.0\n".toList)).2.2
      "module s // (fork)\n\n".toList "\n\tmoduleA v1.0.0\n".toList rfl (by decide)
      (by decide)⟩

/-- A manifest with a block line that trims to a text without a space makes
the parser panic. -/
theorem parseModString_panic (pre body post l : Str)
    (hopen : stringsIndex (pre ++ requireOpen ++ body ++ ')' :: post) requireOpen
      = some pre.length)
    (hclose : ')' ∉ body) (hl : l ∈ stringsSplit (stringsTrimSpace body) '\n')
    (hsp : ' ' ∉ stringsTrimSpace l) :
    parseModString (pre ++ requireOpen ++ body ++ ')' :: post) = Outcome.panic := by
  rw [parseModString_body pre body post hopen hclose]
  exact parseLines_panic _ _ l hl hsp

/-- C12, on the code: the block of `badlineManifest` has the line `badline`.
The parser does not return an error for it: the index `split[1]` is out of
range and the call panics, and so does the run of `Match`, which logs
nothing. -/
theorem badline_panics :
    parseModString badlineManifest = Outcome.panic ∧
      parseFileToRequireMap badlineFS (pathJoin "set" "go.mod") = Outcome.panic ∧
      (Match pathJoin badlineFS "get" "set").panicked = true ∧
      (Match pathJoin badlineFS "get" "set").log = [] :=
  ⟨by decide, by decide, by decide, by decide⟩

theorem forall₂_of_map_eq {α β γ : Type} (g : α → γ) (f : β → γ) :
    ∀ (ls : List α) (es : List β), ls.map g = es.map f →
      List.Forall₂ (fun l e => g l = f e) ls es
  | [], [], _ => List.Forall₂.nil
  | [], _ :: _, h => by simp at h
  | _ :: _, [], h => by simp at h
  | l :: ls, e :: es, h => by
    simp only [List.map_cons, List.cons.injEq] at h
    exact List.Forall₂.cons h.1 (forall₂_of_map_eq g f ls es h.2)

/-- The parser on a block whose lines all trim to `name ++ " " ++ rest`
with no space in the name. -/
theorem parseModString_lines (pre body post : Str) (es : List (Str × Str))
    (hfirst : ∀ j, j < pre.length →
      ¬ requireOpen <+: (pre ++ requireOpen ++ body ++ ')' :: post).drop j)
    (hclose : ')' ∉ body)
    (hlines : (stringsSplit (stringsTrimSpace body) '\n').map stringsTrimSpace
      = es.map fun e => e.1 ++ ' ' :: e.2)
    (hnames : ∀ e ∈ es, ' ' ∉ e.1) :
    parseModString (pre ++ requireOpen ++ body ++ ')' :: post)
      = Outcome.ok (es.reverse, es.map Prod.fst) := by
  have hopen : stringsIndex (pre ++ requireOpen ++ body ++ ')' :: post) requireOpen
      = some pre.length := by
    apply stringsIndex_of_first _ _ _ _ _ hfirst
    · simp [List.append_assoc]
    · simp
  rw [parseModString_body pre body post hopen hclose,
    parseLines_entries _ es [] (forall₂_of_map_eq _ _ _ _ hlines) hnames]
  simp

/-- C13, as stated, fails: the block line of `doubleSpaceManifest` trims to
`moduleA`, two spaces, `v1.0.0`; the parser records for `moduleA` the
version-spec that begins with the second space, not `v1.0.0`. -/
theorem two_spaces_stay_in_version :
    stringsTrimSpace "\tmoduleA  v1.0.0".toList
        = "moduleA".toList ++ "  ".toList ++ "v1.0.0".toList ∧
      parseModString doubleSpaceManifest
        = Outcome.ok ([("moduleA".toList, " v1.0.0".toList)], ["moduleA".toList]) ∧
      parseModString doubleSpaceManifest
        ≠ Outcome.ok ([("moduleA".toList, "v1.0.0".toList)], ["moduleA".toList]) :=
  ⟨by decide, by decide, by decide⟩

/-- C13, amended: on a manifest whose first `require (` is followed by a
body without `)` and then `)`, when every line of the trimmed body trims to
`name ++ " " ++ rest` with no space character in `name`, the parser
succeeds and records for the lines, in order, the entries `(name, rest)`:
the split is at the first space character, and the version-spec is all that
follows that space, verbatim. -/
theorem parse_splits_at_first_space (pre body post : Str) (es : List (Str × Str))
    (hfirst : ∀ j, j < pre.length →
      ¬ requireOpen <+: (pre ++ requireOpen ++ body ++ ')' :: post).drop j)
    (hclose : ')' ∉ body)
    (hlines : (stringsSplit (stringsTrimSpace body) '\n').map stringsTrimSpace
      = es.map fun e => e.1 ++ ' ' :: e.2)
    (hnames : ∀ e ∈ es, ' ' ∉ e.1) :
    parseModString (pre ++ requireOpen ++ body ++ ')' :: post)
      = Outcome.ok (es.reverse, es.map Prod.fst) :=
  parseModString_lines pre body post es hfirst hclose hlines hnames

/-- C13, amended, on a body with a space-indented line and a line with two
spaces after the name. -/
theorem parse_splits_at_first_space_witness :
    (∀ j, j < "module m\n\n".toList.length → ¬ requireOpen <+:
        ("module m\n\n".toList ++ requireOpen ++ mixedBody ++ ')' :: "\n".toList).drop j) ∧
      ')' ∉ mixedBody ∧
      (stringsSplit (stringsTrimSpace mixedBody) '\n').map stringsTrimSpace
        = (mixedEntries.map fun e => e.1 ++ ' ' :: e.2) ∧
      (∀ e ∈ mixedEntries, ' ' ∉ e.1) ∧
      parseModString ("module m\n\n".toList ++ requireOpen ++ mixedBody ++ ')' :: "\n".toList)
        = Outcome.ok (mixedEntries.reverse, mixedEntries.map Prod.fst) :=
  ⟨by decide, by decide, by decide, by decide,
    parse_splits_at_first_space "module m\n\n".toList mixedBody "\n".toList mixedEntries
      (by decide) (by decide) (by decide) (by decide)⟩

/-- C14, on the code: with a blank line between the two entry lines the
parser panics (the blank line trims to the empty text, which has no second
part); without the blank line it returns the two entries. -/
theorem blank_line_panics :
    parseModString blankLineManifest = Outcome.panic ∧
      parseModString noBlankLineManifest
        = Outcome.ok ([("moduleB".toList, "v2.0.0".toList), ("moduleA".toList, "v1.0.0".toList)],
            ["moduleA".toList, "moduleB".toList]) :=
  ⟨by decide, by decide⟩

/-- C15, on the code: on a manifest with an empty block the parser panics
(the trimmed body is the empty text, `strings.Split` gives one empty line,
and that line has no second part), so there is no empty list and no empty
map to encode; the encoder, given an empty map and an empty list, does
write the header, a line break and the trailer. -/
theorem empty_block_panics :
    stringsSplit (stringsTrimSpace "\n".toList) '\n' = [[]] ∧
      parseModString emptyBlockManifest = Outcome.panic ∧
      encodeModString emptyBlockManifest [] []
        = Except.ok ("module m\n\nrequire (".toList ++ "\n".toList ++ ")\n".toList) :=
  ⟨by decide, by decide, rfl⟩

/-! ## The files a run writes -/

theorem encodeModFile_other (fs : FS) (path : String) (m : GoMap) (ks : List Str)
    (p : String) (hp : p ≠ path) : (encodeModFile fs path m ks).1 p = fs p := by
  unfold encodeModFile
  split
  · rfl
  · split
    · rfl
    · simp [writeFile, hp]

theorem matchGoMods_other (fs : FS) (getGoModPath setGoModPath : String) (p : String)
    (hp : p ≠ setGoModPath) : (matchGoMods fs getGoModPath setGoModPath).fs p = fs p := by
  unfold matchGoMods
  split
  · rfl
  · rfl
  · split
    · rfl
    · exact encodeModFile_other fs _ _ _ p hp
    · exact encodeModFile_other fs _ _ _ p hp

/-- C16, as stated, fails: when the get path and the set path name the same
module, the source manifest is the target manifest, and the run rewrites
it (here from the space-indented to the tab-indented layout). -/
theorem source_rewritten_when_same_module :
    oneModuleFS (pathJoin "mod" "go.mod") = some (Node.file spacesManifest) ∧
      (Match pathJoin oneModuleFS "mod" "mod").fs (pathJoin "mod" "go.mod")
        = some (Node.file tabsManifest) ∧
      (Match pathJoin oneModuleFS "mod" "mod").fs (pathJoin "mod" "go.mod")
        ≠ oneModuleFS (pathJoin "mod" "go.mod") :=
  ⟨by decide, by decide, by decide⟩

/-- C16, amended: in every run of `Match`, every path other than the
`go.mod` under the set path names after the run what it named before: the
only file the run writes is the target manifest.  So the source manifest is
unchanged whenever its path is not the path of the target manifest. -/
theorem match_writes_only_target (join : String → String → String) (fs : FS)
    (getPath setPath : String) :
    (∀ p, p ≠ join setPath "go.mod" → (Match join fs getPath setPath).fs p = fs p) ∧
      (join getPath "go.mod" ≠ join setPath "go.mod" →
        (Match join fs getPath setPath).fs (join getPath "go.mod")
          = fs (join getPath "go.mod")) := by
  have h : ∀ p, p ≠ join setPath "go.mod" → (Match join fs getPath setPath).fs p = fs p := by
    intro p hp
    unfold Match
    split
    · rfl
    split
    · rfl
    split
    · rfl
    split
    · rfl
    split
    · rfl
    exact matchGoMods_other fs _ _ p hp
  exact ⟨h, fun hne => h _ hne⟩

/-- C16, amended, on the scenario of the specification: the get module's
manifest is unchanged. -/
theorem match_writes_only_target_witness :
    pathJoin "get" "go.mod" ≠ pathJoin "set" "go.mod" ∧
      (Match pathJoin scenarioFS "get" "set").fs (pathJoin "get" "go.mod")
        = scenarioFS (pathJoin "get" "go.mod") :=
  ⟨by decide, (match_writes_only_target pathJoin scenarioFS "get" "set").2 (by decide)⟩

/-! ## Duplicate names -/

theorem GoMap.get?_eq_none_iff (m : GoMap) (k : Str) :
    GoMap.get? m k = none ↔ k ∉ m.map Prod.fst := by
  rw [← GoMap.get?_isSome_iff]
  cases GoMap.get? m k <;> simp

theorem GoMap.get?_append_of_not_mem : ∀ (l m : GoMap) (k : Str), k ∉ l.map Prod.fst →
    GoMap.get? (l ++ m) k = GoMap.get? m k
  | [], _, _, _ => rfl
  | (k', v') :: l, m, k, h => by
    rw [List.map_cons, List.mem_cons, not_or] at h
    rw [List.cons_append, GoMap.get?_cons, if_neg (Ne.symm h.1)]
    exact GoMap.get?_append_of_not_mem l m k h.2

/-- C17: on a manifest whose block lines are well formed for the parser
and hold the name `k` on exactly two lines, with the version-specs `v₁` and
then `v₂`, `v₁ ≠ v₂`, the parser returns a map that gives `k` the last
version-spec `v₂` (and not `v₁`) and a name list with `k` at both places,
and re-encoding writes at both places the same line, `k` with `v₂`. -/
theorem duplicate_name_last_wins (pre body post : Str) (A B C : List (Str × Str))
    (k v₁ v₂ : Str)
    (hfirst : ∀ j, j < pre.length →
      ¬ requireOpen <+: (pre ++ requireOpen ++ body ++ ')' :: post).drop j)
    (hclose : ')' ∉ body)
    (hlines : (stringsSplit (stringsTrimSpace body) '\n').map stringsTrimSpace
      = (A ++ (k, v₁) :: B ++ (k, v₂) :: C).map fun e => e.1 ++ ' ' :: e.2)
    (hnames : ∀ e ∈ A ++ (k, v₁) :: B ++ (k, v₂) :: C, ' ' ∉ e.1)
    (hA : k ∉ A.map Prod.fst) (hB : k ∉ B.map Prod.fst) (hC : k ∉ C.map Prod.fst)
    (hv : v₁ ≠ v₂) :
    ∃ (m : GoMap) (ks : List Str),
      parseModString (pre ++ requireOpen ++ body ++ ')' :: post) = Outcome.ok (m, ks) ∧
      GoMap.get? m k = some v₂ ∧ GoMap.get? m k ≠ some v₁ ∧
      ks = A.map Prod.fst ++ k :: B.map Prod.fst ++ k :: C.map Prod.fst ∧
      ks.count k = 2 ∧
      encodeRequire m ks
        = (A.map fun e => entryLine (e.1, GoMap.get m e.1)).flatten ++ entryLine (k, v₂)
          ++ (B.map fun e => entryLine (e.1, GoMap.get m e.1)).flatten ++ entryLine (k, v₂)
          ++ (C.map fun e => entryLine (e.1, GoMap.get m e.1)).flatten ++ ['\n'] := by
  have hget : GoMap.get? (A ++ (k, v₁) :: B ++ (k, v₂) :: C).reverse k = some v₂ := by
    have hrev : (A ++ (k, v₁) :: B ++ (k, v₂) :: C).reverse
        = C.reverse ++ (k, v₂) :: (A ++ (k, v₁) :: B).reverse := by simp
    rw [hrev, GoMap.get?_append_of_not_mem _ _ _ (by simpa using hC), GoMap.get?_cons,
      if_pos rfl]
  refine ⟨_, _, parseModString_lines pre body post _ hfirst hclose hlines hnames, hget, ?_,
    by simp, ?_, ?_⟩
  · rw [hget]
    intro h
    exact hv (Option.some.inj h).symm
  · simp only [List.map_append, List.map_cons, List.count_append, List.count_cons_self,
      List.count_eq_zero_of_not_mem hA, List.count_eq_zero_of_not_mem hB,
      List.count_eq_zero_of_not_mem hC]
  · generalize (A ++ (k, v₁) :: B ++ (k, v₂) :: C).reverse = m at hget ⊢
    have hk : GoMap.get m k = v₂ := by
      unfold GoMap.get
      rw [hget]
      rfl
    rw [encodeRequire_eq]
    simp only [List.map_append, List.map_cons, List.map_map, List.flatten_append,
      List.flatten_cons, hk, List.append_assoc, Function.comp_def]

/-- C17 on a body with two lines for `moduleA`. -/
theorem duplicate_name_last_wins_witness :
    (∀ j, j < "module m\n\n".toList.length → ¬ requireOpen <+:
        ("module m\n\n".toList ++ requireOpen ++ duplicateBody ++ ')' :: "\n".toList).drop j) ∧
      ')' ∉ duplicateBody ∧
      (stringsSplit (stringsTrimSpace duplicateBody) '\n').map stringsTrimSpace
        = (([] : List (Str × Str)) ++ ("moduleA".toList, "v1.0.0".toList)
            :: [("moduleB".toList, "v2.0.0".toList)]
            ++ ("moduleA".toList, "v1.5.0".toList) :: []).map (fun e => e.1 ++ ' ' :: e.2) ∧
      "v1.0.0".toList ≠ "v1.5.0".toList ∧
      ∃ (m : GoMap) (ks : List Str),
        parseModString
            ("module m\n\n".toList ++ requireOpen ++ duplicateBody ++ ')' :: "\n".toList)
          = Outcome.ok (m, ks) ∧
        GoMap.get? m "moduleA".toList = some "v1.5.0".toList ∧
        ks.count "moduleA".toList = 2 :=
  ⟨by decide, by decide, by decide, by decide,
    (duplicate_name_last_wins "module m\n\n".toList duplicateBody "\n".toList []
      [("moduleB".toList, "v2.0.0".toList)] [] "moduleA".toList "v1.0.0".toList
      "v1.5.0".toList (by decide) (by decide) (by decide) (by decide) (by decide) (by decide)
      (by decide) (by decide)).imp fun _ h => h.imp fun _ h => ⟨h.1, h.2.1, h.2.2.2.2.1⟩⟩

/-! ## Rewriting twice -/

theorem GoMap.get_of_map (g : Str → Str) (ks : List Str) (k : Str) (hk : k ∈ ks) :
    GoMap.get (ks.map fun k' => (k', g k')).reverse k = g k := by
  have hsome : (GoMap.get? (ks.map fun k' => (k', g k')).reverse k).isSome = true := by
    rw [GoMap.get?_isSome_iff, List.map_reverse, List.mem_reverse, List.map_map]
    exact List.mem_map.mpr ⟨k, hk, rfl⟩
  obtain ⟨v, hv⟩ := Option.isSome_iff_exists.mp hsome
  have hmem := GoMap.mem_of_get? _ _ _ hv
  rw [List.mem_reverse, List.mem_map] at hmem
  obtain ⟨k', _, heq⟩ := hmem
  simp only [Prod.mk.injEq] at heq
  obtain ⟨rfl, rfl⟩ := heq
  simp [GoMap.get, hv]

/-- C18: for a manifest that parses and has no `)` before its first
`require (`, the text `N` that the encoder writes for the manifest with its
own parsed map and name list parses again, and the encoder writes `N` for
`N` with the map and name list parsed from `N`. -/
theorem rewrite_idempotent (pre rest : Str) (m : GoMap) (ks : List Str)
    (hfirst : ∀ j, j < pre.length → ¬ requireOpen <+: (pre ++ requireOpen ++ rest).drop j)
    (hpre : ')' ∉ pre)
    (hparse : parseModString (pre ++ requireOpen ++ rest) = Outcome.ok (m, ks)) :
    ∃ (N : Str) (m' : GoMap) (ks' : List Str),
      encodeModString (pre ++ requireOpen ++ rest) m ks = Except.ok N ∧
      parseModString N = Outcome.ok (m', ks') ∧
      encodeModString N m' ks' = Except.ok N := by
  have hopen : stringsIndex (pre ++ requireOpen ++ rest) requireOpen = some pre.length := by
    apply stringsIndex_of_first _ _ _ _ _ hfirst
    · simp [List.append_assoc]
    · simp
  have hH : ¬ requireOpen <:+: pre := by
    intro hin
    obtain ⟨j, hj⟩ := (contains_iff_occurs requireOpen pre).mp hin
    have hjlen : j < pre.length := by
      by_contra hge
      rw [List.drop_eq_nil_of_le (Nat.le_of_not_lt hge)] at hj
      have := List.eq_nil_of_prefix_nil hj
      simp [requireOpen_eq] at this
    apply hfirst j hjlen
    rw [List.append_assoc, List.drop_append_of_le_length (Nat.le_of_lt hjlen)]
    exact hj.trans (List.prefix_append _ _)
  obtain ⟨pre', block, post, es, hM, hopen', hblock, hes, hks, hm, hgood⟩ :=
    parseModString_ok _ _ _ hparse
  have hlen : pre'.length = pre.length := by
    rw [hopen] at hopen'
    exact (Option.some.inj hopen').symm
  have hsplit : pre = pre' ∧ requireOpen ++ rest = requireOpen ++ (block ++ ')' :: post) := by
    apply List.append_inj _ hlen.symm
    simpa [List.append_assoc] using hM
  obtain ⟨rfl, hrest⟩ := hsplit
  have hrest' : rest = block ++ ')' :: post := List.append_cancel_left hrest
  subst hrest'
  have hgood' : ∀ e ∈ ks.map fun k => (k, GoMap.get m k), GoodEntry e := by
    intro e he
    rw [List.mem_map] at he
    obtain ⟨k, hk, rfl⟩ := he
    have hk' := hk
    rw [hks, List.mem_map] at hk'
    obtain ⟨e', he', rfl⟩ := hk'
    refine ⟨(hgood e' he').1, ?_⟩
    have hsome : (GoMap.get? m e'.1).isSome = true := by
      rw [GoMap.get?_isSome_iff, hm, List.map_reverse, List.mem_reverse, ← hks]
      exact hk
    obtain ⟨v, hv⟩ := Option.isSome_iff_exists.mp hsome
    have hmem := GoMap.mem_of_get? _ _ _ hv
    rw [hm, List.mem_reverse] at hmem
    simp only [GoMap.get, hv, Option.getD_some]
    exact (hgood _ hmem).2
  have hne : (ks.map fun k => (k, GoMap.get m k)) ≠ [] := by
    rw [hks]
    simpa using hes
  have hN : pre ++ requireOpen ++ encodeRequire m ks ++ ')' :: post
      = canonicalManifest pre (ks.map fun k => (k, GoMap.get m k)) post := by
    rw [encodeRequire_eq]
    rfl
  have hfst : (ks.map fun k => (k, GoMap.get m k)).map Prod.fst = ks := by
    rw [List.map_map]
    exact List.map_id _
  refine ⟨pre ++ requireOpen ++ encodeRequire m ks ++ ')' :: post,
    (ks.map fun k => (k, GoMap.get m k)).reverse, ks, ?_, ?_, ?_⟩
  · refine encodeModString_eq pre _ (pre ++ requireOpen ++ block) post m ks hopen
      (by simp [List.append_assoc]) ?_
    intro h
    simp only [List.mem_append] at h
    rcases h with (h | h) | h
    · exact hpre h
    · exact absurd h (by decide)
    · exact hblock h
  · rw [hN, canonicalManifest_parse pre post _ hH hne hgood', hfst]
  · have hsame : encodeRequire (ks.map fun k => (k, GoMap.get m k)).reverse ks
        = encodeRequire m ks :=
      encodeRequire_congr _ _ _ fun k hk => GoMap.get_of_map (GoMap.get m) ks k hk
    rw [hN, canonicalManifest_encode pre post _ hpre hH hgood', ← hN, hsame]

/-- C18 on the space-indented manifest. -/
theorem rewrite_idempotent_witness :
    (∀ j, j < "module m\n\n".toList.length → ¬ requireOpen <+:
        ("module m\n\n".toList ++ requireOpen ++ "\n    moduleA v1.0.0\n)\n".toList).drop j) ∧
      ')' ∉ "module m\n\n".toList ∧
      parseModString
          ("module m\n\n".toList ++ requireOpen ++ "\n    moduleA v1.0.0\n)\n".toList)
        = Outcome.ok ([("moduleA".toList, "v1.0.0".toList)], ["moduleA".toList]) ∧
      ∃ (N : Str) (m' : GoMap) (ks' : List Str),
        encodeModString
            ("module m\n\n".toList ++ requireOpen ++ "\n    moduleA v1.0.0\n)\n".toList)
            [("moduleA".toList, "v1.0.0".toList)] ["moduleA".toList] = Except.ok N ∧
        parseModString N = Outcome.ok (m', ks') ∧
        encodeModString N m' ks' = Except.ok N :=
  ⟨by decide, by decide, by decide,
    rewrite_idempotent "module m\n\n".toList "\n    moduleA v1.0.0\n)\n".toList
      [("moduleA".toList, "v1.0.0".toList)] ["moduleA".toList]
      (by decide) (by decide) (by decide)⟩

/-! ## Canonical manifests on file -/

theorem goodEntry_of_canonical (e : Str × Str)
    (hname : e.1 ≠ [] ∧ (∀ c ∈ e.1, unicodeIsSpace c = false) ∧ ')' ∉ e.1)
    (hver : e.2 ≠ [] ∧ startsClean e.2 = true ∧ endsClean e.2 = true ∧ '\n' ∉ e.2 ∧ ')' ∉ e.2) :
    GoodEntry e := by
  obtain ⟨hne, hsp, hcl⟩ := hname
  refine ⟨⟨hne, ?_, ?_, ?_, hcl⟩, hver.1, hver.2.2.1, hver.2.2.2.1, hver.2.2.2.2⟩
  · cases h : e.1 with
    | nil => rfl
    | cons c t =>
      have := hsp c (by rw [h]; exact List.mem_cons_self _ _)
      simp [startsClean, this]
  · intro h
    have := hsp _ h
    exact absurd this (by decide)
  · intro h
    have := hsp _ h
    exact absurd this (by decide)

/-- C19: for a file that holds `H ++ "require (" ++ lines ++ "\n)" ++ T`
with at least one line `"\n\t" ++ k ++ " " ++ v`, where `H` contains neither
`)` nor `require (`, the names are pairwise distinct, not empty and without
white space and `)`, and every version-spec is not empty, neither begins
nor ends with white space and contains no line break and no `)`:
`parseFileToRequireMap` returns the names in order and a map that gives
every name its version-spec and has no other key, and `encodeModFile` with
that result writes exactly the text the file holds. -/
theorem canonical_roundtrip_on_file (fs : FS) (path : String) (H T : Str)
    (es : List (Str × Str))
    (hfile : fs path = some (Node.file (canonicalManifest H es T)))
    (hclose : ')' ∉ H) (hH : ¬ requireOpen <:+: H) (hes : es ≠ [])
    (hnodup : (es.map Prod.fst).Nodup)
    (hnames : ∀ e ∈ es, e.1 ≠ [] ∧ (∀ c ∈ e.1, unicodeIsSpace c = false) ∧ ')' ∉ e.1)
    (hvers : ∀ e ∈ es, e.2 ≠ [] ∧ startsClean e.2 = true ∧ endsClean e.2 = true ∧
      '\n' ∉ e.2 ∧ ')' ∉ e.2) :
    ∃ m : GoMap,
      parseFileToRequireMap fs path = Outcome.ok (m, es.map Prod.fst) ∧
      (∀ e ∈ es, GoMap.get? m e.1 = some e.2) ∧
      (∀ k, k ∉ es.map Prod.fst → GoMap.get? m k = none) ∧
      encodeModFile fs path m (es.map Prod.fst)
        = (writeFile fs path (canonicalManifest H es T), none) := by
  have hgood : ∀ e ∈ es, GoodEntry e :=
    fun e he => goodEntry_of_canonical e (hnames e he) (hvers e he)
  have hnd : (es.reverse.map Prod.fst).Nodup := by
    rw [List.map_reverse, List.nodup_reverse]
    exact hnodup
  refine ⟨es.reverse, ?_, ?_, ?_, ?_⟩
  · unfold parseFileToRequireMap
    rw [readFile_of_file fs _ _ hfile]
    exact canonicalManifest_parse H T es hH hes hgood
  · intro e he
    exact GoMap.get?_of_mem_nodup es.reverse e.1 e.2 hnd (List.mem_reverse.mpr he)
  · intro k hk
    rw [GoMap.get?_eq_none_iff, List.map_reverse, List.mem_reverse]
    exact hk
  · unfold encodeModFile
    rw [readFile_of_file fs _ _ hfile]
    simp only
    rw [canonicalManifest_encode H T es hclose hH hgood, encodeRequire_entries es hnodup]
    rfl

/-- C19 on a module whose manifest is canonical, with two entries. -/
theorem canonical_roundtrip_on_file_witness :
    canonicalFS "set/go.mod"
        = some (Node.file (canonicalManifest "module m\n\n".toList canonicalEntries "\n".toList)) ∧
      ')' ∉ "module m\n\n".toList ∧ ¬ requireOpen <:+: "module m\n\n".toList ∧
      canonicalEntries ≠ [] ∧ (canonicalEntries.map Prod.fst).Nodup ∧
      (∀ e ∈ canonicalEntries,
        e.1 ≠ [] ∧ (∀ c ∈ e.1, unicodeIsSpace c = false) ∧ ')' ∉ e.1) ∧
      (∀ e ∈ canonicalEntries, e.2 ≠ [] ∧ startsClean e.2 = true ∧ endsClean e.2 = true ∧
        '\n' ∉ e.2 ∧ ')' ∉ e.2) ∧
      ∃ m : GoMap,
        parseFileToRequireMap canonicalFS "set/go.mod"
          = Outcome.ok (m, canonicalEntries.map Prod.fst) ∧
        (∀ e ∈ canonicalEntries, GoMap.get? m e.1 = some e.2) ∧
        (∀ k, k ∉ canonicalEntries.map Prod.fst → GoMap.get? m k = none) ∧
        encodeModFile canonicalFS "set/go.mod" m (canonicalEntries.map Prod.fst)
          = (writeFile canonicalFS "set/go.mod"
              (canonicalManifest "module m\n\n".toList canonicalEntries "\n".toList), none) :=
  ⟨by decide, by decide, by decide, by decide, by decide, by decide, by decide,
    canonical_roundtrip_on_file canonicalFS "set/go.mod" "module m\n\n".toList "\n".toList
      canonicalEntries (by decide) (by decide) (by decide) (by decide) (by decide) (by decide)
      (by decide)⟩

end MatchVersions
